import Mathlib

/-!
Package `services` of torrent-http-proxy: a shallow embedding of
`services/url_parser.go`, `services/http_proxy.go` and `services/http_proxy_pool.go`,
with the properties of the routing-key parser, of the proxy instance and of the
proxy pool.

Go strings are byte sequences; they are modelled as lists of characters.  Every
separator the code splits on (`/`, `~`, `:`) is a one-byte string, so the functions
of package `strings` are embedded for a one-character separator.  The configured
mod names `s.configs.GetMods()` are a parameter `mods` of the parser.
-/

namespace Services

/-- A Go `string`. -/
abbrev Str := List Char

/-! ## Package `strings` -/

/-- Go `strings.Contains(s, sep)` for a one-byte `sep`. -/
def Contains (s : Str) (sep : Char) : Bool :=
  s.any (fun c => c == sep)

/-- Go `strings.Index(s, sep)`: index of the first `sep` in `s`, or `-1`. -/
def Index : Str → Char → Int
  | [], _ => -1
  | c :: cs, sep =>
    if c = sep then 0
    else if Index cs sep < 0 then -1 else Index cs sep + 1

/-- Go `strings.LastIndex(s, sep)`: index of the last `sep` in `s`, or `-1`. -/
def LastIndex : Str → Char → Int
  | [], _ => -1
  | c :: cs, sep =>
    if 0 ≤ LastIndex cs sep then LastIndex cs sep + 1
    else if c = sep then 0 else -1

/-- The slice `s[:i]`. -/
def sliceTo (s : Str) (i : Int) : Str := s.take i.toNat

/-- The slice `s[i:]`. -/
def sliceFrom (s : Str) (i : Int) : Str := s.drop i.toNat

/-- The loop of `strings.genSplit`: at most `n` further cuts at `sep`, then the
remainder of the string is the last element. -/
def genSplitLoop (sep : Char) : Nat → Str → List Str
  | 0, s => [s]
  | n + 1, s =>
    if Index s sep < 0 then [s]
    else sliceTo s (Index s sep) :: genSplitLoop sep n (sliceFrom s (Index s sep + 1))

/-- Go `strings.SplitN(s, sep, n)` for a one-byte `sep` and `n ≥ 0`: `n = 0` gives
the empty slice, otherwise `n` is capped at `len(s) + 1` and the string is cut
at the first `n - 1` separators. -/
def SplitN (s : Str) (sep : Char) (n : Nat) : List Str :=
  if n = 0 then []
  else genSplitLoop sep (min n (s.length + 1) - 1) s

/-! ## `filepath.Clean` (Unix: separator `/`, no volume name) -/

/-- The inner loop of the `..` case, which decrements `out.w` while
`out.w > dotdot && !sep(out.index(out.w))`, as the final value of `out.w`. -/
def backtrackLoop (out : Str) (dotdot : Nat) : Nat → Nat
  | 0 => 0
  | w + 1 =>
    if dotdot < w + 1 ∧ out.getD (w + 1) '/' ≠ '/' then backtrackLoop out dotdot w
    else w + 1

/-- The step `out.w--` followed by the inner loop; the buffer is cut at the new `out.w`. -/
def backtrack (out : Str) (dotdot : Nat) : Str :=
  out.take (backtrackLoop out dotdot (out.length - 1))

/-- The main loop `for r < n` of `filepath.Clean`.  `path` is the unread part
`path[r:]`, `out` the buffer `out.buf[:out.w]`, `dotdot` the index where `..`
must stop.  Every iteration reads at least one byte, so `n` iterations are
enough for an input of `n` bytes. -/
def cleanLoop (rooted : Bool) : Nat → Str → Str → Nat → Str
  | 0, _, out, _ => out
  | fuel + 1, path, out, dotdot =>
    match path with
    | [] => out
    | c :: rest =>
      if c = '/' then
        -- empty path element
        cleanLoop rooted fuel rest out dotdot
      else if c = '.' ∧ (rest = [] ∨ rest.head? = some '/') then
        -- . element
        cleanLoop rooted fuel rest out dotdot
      else if c = '.' ∧ rest.head? = some '.' ∧
          (rest.tail = [] ∨ rest.tail.head? = some '/') then
        -- .. element: remove to last separator
        if dotdot < out.length then
          cleanLoop rooted fuel rest.tail (backtrack out dotdot) dotdot
        else if !rooted then
          let out1 := if 0 < out.length then out ++ ['/'] else out
          cleanLoop rooted fuel rest.tail (out1 ++ ['.', '.']) (out1.length + 2)
        else
          cleanLoop rooted fuel rest.tail out dotdot
      else
        -- real path element: add slash if needed, copy element
        let out1 :=
          if (rooted && out.length != 1) || (!rooted && out.length != 0) then out ++ ['/']
          else out
        cleanLoop rooted fuel (path.dropWhile (fun x => x != '/'))
          (out1 ++ path.takeWhile (fun x => x != '/')) dotdot

/-- Go `filepath.Clean(path)`. -/
def Clean (path : Str) : Str :=
  if path = [] then ['.']
  else
    let rooted : Bool := path.head? = some '/'
    let out :=
      if rooted then cleanLoop rooted path.length (path.drop 1) ['/'] 1
      else cleanLoop rooted path.length path [] 0
    -- Turn empty string into "."
    if out.length = 0 then ['.'] else out

/-! ## Package `regexp`: the pattern `[0-9a-f]{5,40}` -/

/-- The character class `[0-9a-f]`. -/
def hexClass (c : Char) : Bool :=
  ('0' ≤ c && c ≤ '9') || ('a' ≤ c && c ≤ 'f')

/-- A match of `cls{min,max}` anchored at the start of `s`: the repetition is
greedy, it consumes up to `max` leading characters of the class and succeeds
when it got at least `min` of them. -/
def matchRepeatAt (cls : Char → Bool) (min max : Nat) (s : Str) : Bool :=
  decide (min ≤ ((s.take max).takeWhile cls).length)

/-- Go `regexp.MatchString` for a pattern `cls{min,max}`: the pattern is not
anchored, so a match may start at any position of `s`. -/
def MatchString (cls : Char → Bool) (min max : Nat) (s : Str) : Bool :=
  s.tails.any (matchRepeatAt cls min max)

/-! ## `services/url_parser.go` -/

/-- Mod struct represents modification of source file. -/
structure Mod where
  Type_ : Str
  Path : Str
  Extra : Str
  deriving DecidableEq, Repr

/-- Source struct represents torrent file source.  `Mod` is a pointer in the
source, `none` is the nil pointer. -/
structure Source where
  Type_ : Str
  InfoHash : Str
  Path : Str
  Token : Str
  Mod : Option Mod
  deriving DecidableEq, Repr

/-- Go `Source.GetKey`. -/
def Source.GetKey (s : Source) : Str :=
  let key := s.InfoHash ++ s.Type_
  match s.Mod with
  | some m => key ++ s.Path ++ m.Type_ ++ m.Extra
  | none => key

/-- Go `checkHash`: the pattern compiles, so the ignored error is always nil. -/
def checkHash (hash : Str) : Bool :=
  MatchString hexClass 5 40 hash

/-- The loop `for _, v := range s.configs.GetMods()` of `extractMod`, as the
final value of `exist`. -/
def modExists (t : Str) : List Str → Bool
  | [] => false
  | v :: vs => if t = v then true else modExists t vs

/-- Go `URLParser.extractMod`; `mods` is `s.configs.GetMods()`.  The result is the
pair `(path, mod)` or the error. -/
def extractMod (mods : List Str) (path : Str) : Except Str (Str × Option Mod) :=
  if !Contains path '~' then .ok (path, none)
  else
    let index := LastIndex path '~'
    let first := sliceTo path index
    let last := sliceFrom path (index + 1)
    let path := first
    let p := SplitN last '/' 2
    let t := p.getD 0 []
    let ee := SplitN t ':' 2
    let e := if 1 < ee.length then ee.getD 1 [] else []
    let t := if 1 < ee.length then ee.getD 0 [] else t
    if !modExists t mods then .ok (path, none)
    else
      let modPath := if 1 < p.length then '/' :: p.getD 1 [] else ['/']
      let modPath := Clean modPath
      .ok (path, some { Type_ := t, Path := modPath, Extra := e })

/-- Go `url.Values`: a map from a key to its list of values. -/
abbrev Values := Str → Option (List Str)

/-- Go `Values.Get`: the first value of the key, or the empty string. -/
def Values.Get (v : Values) (key : Str) : Str :=
  match v key with
  | some (x :: _) => x
  | _ => []

/-- The parts of `url.URL` that `Parse` reads: `Path` and the parsed query
`url.Query()`. -/
structure URL where
  Path : Str
  Query : Values

/-- The loop `for _, v := range s.configs.GetMods()` of `Parse`, as the final
value of `sourceType`. -/
def sourceTypeLoop (hash : Str) : List Str → Str → Str
  | [], sourceType => sourceType
  | v :: vs, sourceType => if hash = v then v else sourceTypeLoop hash vs sourceType

/-- Go `URLParser.Parse`; `mods` is `s.configs.GetMods()`.  An error is modelled by
its message. -/
def Parse (mods : List Str) (url : URL) : Except Str Source :=
  let urlPath := url.Path
  if urlPath = [] then .error "Empty url".toList
  else
    let p := SplitN (sliceFrom urlPath 1) '/' 2
    let hash := p.getD 0 []
    if hash = [] then .error "Empty hash".toList
    else
      let sourceType := sourceTypeLoop hash mods "default".toList
      if sourceType = "default".toList ∧ !checkHash hash then
        .error ("Wrong hash=".toList ++ hash)
      else
        let path := if 1 < p.length then '/' :: p.getD 1 [] else ['/']
        let path := Clean path
        match extractMod mods path with
        | .error err =>
          .error ("Failed to extract mod from path=".toList ++ path ++ ": ".toList ++ err)
        | .ok (newPath, mod) =>
          .ok { InfoHash := hash, Path := newPath, Token := url.Query.Get "token".toList,
                Type_ := sourceType, Mod := mod }

/-! ## `services/http_proxy.go` -/

/-- Go `HTTP_PROXY_DIAL_TIMEOUT`, in seconds. -/
def HTTP_PROXY_DIAL_TIMEOUT : Int := 10

/-- Go `MAX_IDLE_CONNECTIONS`. -/
def MAX_IDLE_CONNECTIONS : Int := 20 * 5

/-- Go `http.Header`: a map from a header key to its list of values. -/
abbrev Header := Str → Option (List Str)

/-- Go `textproto.validHeaderFieldByte`: the token characters of RFC 7230, which are
the ASCII letters and digits and the fifteen punctuation bytes listed by code. -/
def validHeaderFieldByte (c : Char) : Bool :=
  ('0' ≤ c && c ≤ '9') || ('a' ≤ c && c ≤ 'z') || ('A' ≤ c && c ≤ 'Z') ||
  [33, 35, 36, 37, 38, 39, 42, 43, 45, 46, 94, 95, 96, 124, 126].contains c.toNat

/-- The rewriting loop of `textproto.canonicalMIMEHeaderKey`: the first letter and
every letter after a hyphen is upper-cased, every other letter lower-cased. -/
def canonicalLoop : Bool → Str → Str
  | _, [] => []
  | upper, c :: cs =>
    let c1 :=
      if upper ∧ 'a' ≤ c ∧ c ≤ 'z' then Char.ofNat (c.toNat - 32)
      else if ¬ upper ∧ 'A' ≤ c ∧ c ≤ 'Z' then Char.ofNat (c.toNat + 32)
      else c
    c1 :: canonicalLoop (c1 = '-') cs

/-- Go `textproto.CanonicalMIMEHeaderKey`: a key holding a byte that is no token
character is returned unchanged. -/
def CanonicalMIMEHeaderKey (s : Str) : Str :=
  if s.all validHeaderFieldByte then canonicalLoop true s else s

/-- Go `Header.Del(key)`: deletes the values of the canonical form of `key`. -/
def Header.Del (h : Header) (key : Str) : Header :=
  fun k => if k = CanonicalMIMEHeaderKey key then none else h k

/-- Go `corsHeaders`. -/
def corsHeaders : List Str :=
  ["Access-Control-Allow-Credentials".toList, "Access-Control-Allow-Origin".toList]

/-- Go `delCORSHeaders`: the loop `for _, h := range corsHeaders`. -/
def delCORSHeaders (header : Header) : Header :=
  corsHeaders.foldl (fun hd h => Header.Del hd h) header

/-- The fields of `http.Response` this package sets or reads; `Req` is the
request type, `Body` the bytes the body reader yields. -/
structure Response (Req : Type) where
  Status : Str
  StatusCode : Int
  Proto : Str
  ProtoMajor : Int
  ProtoMinor : Int
  Body : Str
  ContentLength : Int
  Request : Option Req
  Header : Header

/-- Go `modifyResponse`: the response after the call, and the returned error. -/
def modifyResponse {Req : Type} (r : Response Req) : Response Req × Option Str :=
  ({ r with Header := delCORSHeaders r.Header }, none)

/-- Modelled from the spec: the `Location` of the external resolver (network
address and availability flag), whose declaration is not part of these sources.
`IP` is the text `loc.IP.String()`, `HTTP` the port. -/
structure Location where
  IP : Str
  HTTP : Int
  Unavailable : Bool

/-- Go `fmt.Sprintf("%s:%d", loc.IP.String(), loc.HTTP)`. -/
def locationAddr (loc : Location) : Str :=
  loc.IP ++ ':' :: (toString loc.HTTP).toList

/-- What `HTTPProxy.dial` asks of the outside: a dial of an address, or a refresh
of the location. -/
inductive NetCall where
  | dial (network addr : Str) (timeout : Int)
  | refresh
  deriving DecidableEq, Repr

/-- Whether a call is a dial attempt. -/
def NetCall.isDial : NetCall → Bool
  | .dial _ _ _ => true
  | .refresh => false

/-- The outside of `HTTPProxy.dial` as oracles over a state `W`:
the `Dial(network, addr)` of a `net.Dialer` with the given timeout, and
`s.locw.Refresh(s.logger)`. -/
structure Net (W C E : Type) where
  dial : W → Int → Str → Str → Except E C × W
  refresh : W → Except E Location × W

/-- Go `HTTPProxy.dial`: the returned `(conn, err)`, the state of the outside after
the call and the calls made, in order.  Logging has no effect on the result and
is left out. -/
def HTTPProxy.dial {W C E : Type} (net : Net W C E) (w : W) (network addr : Str) :
    Except E C × W × List NetCall :=
  let timeout := HTTP_PROXY_DIAL_TIMEOUT
  match net.dial w timeout network addr with
  | (.ok conn, w1) => (.ok conn, w1, [.dial network addr timeout])
  | (.error _, w1) =>
    match net.refresh w1 with
    | (.error err, w2) => (.error err, w2, [.dial network addr timeout, .refresh])
    | (.ok loc, w2) =>
      let addr2 := locationAddr loc
      match net.dial w2 timeout network addr2 with
      | (.error err, w3) =>
        (.error err, w3, [.dial network addr timeout, .refresh, .dial network addr2 timeout])
      | (.ok conn, w3) =>
        (.ok conn, w3, [.dial network addr timeout, .refresh, .dial network addr2 timeout])

/-- The memoising fields of `HTTPProxy`: `inited`, `proxy` and `err` (`none` is
nil).  The mutex serialises the calls of `Get`, which are modelled one after
another. -/
structure HTTPProxy (P E : Type) where
  inited : Bool
  proxy : Option P
  err : Option E

/-- Go `NewHTTPProxy`: `inited` is false, `proxy` and `err` have their zero value. -/
def NewHTTPProxy {P E : Type} : HTTPProxy P E :=
  { inited := false, proxy := none, err := none }

/-- Go `HTTPProxy.Get`, with the construction `s.get()` as an oracle over the state
`W` of the outside: the returned `(proxy, err)`, the instance and the outside
after the call. -/
def HTTPProxy.Get {P E W : Type} (get : W → (Option P × Option E) × W)
    (s : HTTPProxy P E) (w : W) : (Option P × Option E) × HTTPProxy P E × W :=
  if s.inited then ((s.proxy, s.err), s, w)
  else
    let r := get w
    let s1 : HTTPProxy P E := { s with proxy := r.1.1, err := r.1.2 }
    let s2 : HTTPProxy P E := { s1 with inited := true }
    ((s2.proxy, s2.err), s2, r.2)

/-- An oracle that also counts its invocations. -/
def counted {P E W : Type} (get : W → (Option P × Option E) × W) :
    W × Nat → (Option P × Option E) × (W × Nat) :=
  fun w => ((get w.1).1, ((get w.1).2, w.2 + 1))

/-- The calls of `Get` on one instance, `n` of them in a row: the results in
order, the instance and the outside afterwards. -/
def runGets {P E W : Type} (get : W → (Option P × Option E) × W) :
    Nat → HTTPProxy P E → W → List (Option P × Option E) × HTTPProxy P E × W
  | 0, s, w => ([], s, w)
  | n + 1, s, w =>
    let r := HTTPProxy.Get get s w
    let rest := runGets get n r.2.1 r.2.2
    (r.1 :: rest.1, rest.2)

/-- The `http.RoundTripper` that `HTTPProxy.get` installs: the stub
`&stubTransport` wrapping `http.DefaultTransport`, or an `&http.Transport` whose
`Dial` is `s.dial` and whose `MaxIdleConnsPerHost` is given. -/
inductive RoundTripper where
  | stubTransport
  | httpTransport (MaxIdleConnsPerHost : Int)
  deriving DecidableEq, Repr

/-- Go `stubTransport.RoundTrip`: the response and the returned error.  The body is
the reader over the empty buffer, the header the empty map. -/
def stubTransport.RoundTrip {Req : Type} (req : Req) : Response Req × Option Str :=
  ({ Status := "503 Service Unavailable".toList,
     StatusCode := 503,
     Proto := "HTTP/1.1".toList,
     ProtoMajor := 1,
     ProtoMinor := 1,
     Body := [],
     ContentLength := 0,
     Request := some req,
     Header := fun _ => none }, none)

/-- The fields of `httputil.ReverseProxy` that `HTTPProxy.get` sets: the target
`url.URL` (scheme and host) of `NewSingleHostReverseProxy`, the transport and the
response post-processor. -/
structure ReverseProxy (Req : Type) where
  Scheme : Str
  Host : Str
  Transport : RoundTripper
  ModifyResponse : Response Req → Response Req × Option Str

/-- Go `HTTPProxy.get`, with `s.locw.GetLocation(s.logger)` as an oracle over the
state `W` of the outside: the returned `(proxy, err)` and the outside after the
call.  An error is modelled by its message, `errors.Wrap` puts its own message
and `: ` before the message of the cause. -/
def HTTPProxy.get {W Req : Type} (getLocation : W → Except Str Location × W) (w : W) :
    (Option (ReverseProxy Req) × Option Str) × W :=
  match getLocation w with
  | (.error err, w1) =>
    ((none, some ("Failed to get location".toList ++ ": ".toList ++ err)), w1)
  | (.ok loc, w1) =>
    let t : RoundTripper :=
      if loc.Unavailable then .stubTransport
      else .httpTransport MAX_IDLE_CONNECTIONS
    ((some { Scheme := "http".toList, Host := locationAddr loc, Transport := t,
             ModifyResponse := modifyResponse }, none), w1)

/-! ## `services/http_proxy_pool.go`

The pool is modelled sequentially.  Time is a natural number of nanoseconds.  The
objects a `sync.Map` points to are held by value: an instance or a timer is reached
only through its map entry, so a call that changes the object changes the entry.
Each object carries the number of its allocation as its identity. -/

/-- Go `HTTP_PROXY_TTL`. -/
def HTTP_PROXY_TTL : Nat := 60

/-- Go `time.Second`, in nanoseconds. -/
def Second : Nat := 1000000000

/-- Go `strconv.FormatBool`. -/
def FormatBool (b : Bool) : Str :=
  if b then "true".toList else "false".toList

/-- A `sync.Map` with string keys. -/
abbrev SyncMap (α : Type) := Str → Option α

/-- Go `sync.Map.LoadOrStore`: the map afterwards, the existing value of the key if
present and otherwise the given value, now stored, and whether it was loaded. -/
def SyncMap.LoadOrStore {α : Type} (m : SyncMap α) (key : Str) (value : α) :
    SyncMap α × α × Bool :=
  match m key with
  | some actual => (m, actual, true)
  | none => (fun k => if k = key then some value else m k, value, false)

/-- Go `sync.Map.Delete`. -/
def SyncMap.Delete {α : Type} (m : SyncMap α) (key : Str) : SyncMap α :=
  fun k => if k = key then none else m k

/-- The entry of `key` after a call through the pointer held under `key` has
changed the object to `value`. -/
def SyncMap.update {α : Type} (m : SyncMap α) (key : Str) (value : α) : SyncMap α :=
  fun k => if k = key then some value else m k

/-- A `*time.Timer`: its allocation number and the time at which it fires. -/
structure Timer where
  id : Nat
  deadline : Nat
  deriving DecidableEq, Repr

/-- A `*HTTPProxy` of the pool: its allocation number, the source and the flag
`NewHTTPProxy` was called with, and the memoising fields. -/
structure Instance (P E : Type) where
  id : Nat
  src : Source
  invoke : Bool
  proxy : HTTPProxy P E

/-- Go `HTTPProxyPool`: the maps `sm` and `timers`, `expire`, the waiters (the
goroutines blocked on `<-timer.C`, each with its key and the number of its
timer), and the numbers of instances and timers allocated so far. -/
structure HTTPProxyPool (P E : Type) where
  sm : SyncMap (Instance P E)
  timers : SyncMap Timer
  expire : Nat
  waiters : List (Str × Nat)
  proxiesMade : Nat
  timersMade : Nat

/-- Go `NewHTTPProxyPool`. -/
def NewHTTPProxyPool {P E : Type} : HTTPProxyPool P E :=
  { sm := fun _ => none, timers := fun _ => none, expire := HTTP_PROXY_TTL * Second,
    waiters := [], proxiesMade := 0, timersMade := 0 }

/-- Go `HTTPProxyPool.Get` at the time `now`, with the construction of an instance
made for `(src, invoke)` as the oracle `get src invoke`: the returned
`(proxy, err)`, the pool and the outside after the call. -/
def HTTPProxyPool.Get {P E W : Type}
    (get : Source → Bool → W → (Option P × Option E) × W)
    (s : HTTPProxyPool P E) (now : Nat) (src : Source) (invoke : Bool) (w : W) :
    (Option P × Option E) × HTTPProxyPool P E × W :=
  let key := src.GetKey ++ FormatBool invoke
  let made : Instance P E :=
    { id := s.proxiesMade, src := src, invoke := invoke, proxy := NewHTTPProxy }
  let l := SyncMap.LoadOrStore s.sm key made
  let v := l.2.1
  let tl := SyncMap.LoadOrStore s.timers key { id := s.timersMade, deadline := now + s.expire }
  let timer := tl.2.1
  let tLoaded := tl.2.2
  -- not loaded: the waiter goroutine starts; loaded: `timer.Reset(s.expire)`
  let timers2 :=
    if !tLoaded then tl.1
    else SyncMap.update tl.1 key { timer with deadline := now + s.expire }
  let waiters2 := if !tLoaded then (key, timer.id) :: s.waiters else s.waiters
  let r := HTTPProxy.Get (get v.src v.invoke) v.proxy w
  (r.1,
   { s with sm := SyncMap.update l.1 key { v with proxy := r.2.1 },
            timers := timers2, waiters := waiters2,
            proxiesMade := s.proxiesMade + 1, timersMade := s.timersMade + 1 },
   r.2.2)

/-- Whether the timer of a waiter has fired at the time `now`: the timer held
under the key of the waiter is its timer and its deadline has come. -/
def HTTPProxyPool.waiterDue {P E : Type} (s : HTTPProxyPool P E) (now : Nat)
    (wt : Str × Nat) : Bool :=
  match s.timers wt.1 with
  | some t => t.id == wt.2 && decide (t.deadline ≤ now)
  | none => false

/-- Whether a waiter of `key` is released at the time `now`. -/
def HTTPProxyPool.evicts {P E : Type} (s : HTTPProxyPool P E) (now : Nat) (key : Str) : Bool :=
  s.waiters.any (fun wt => wt.1 == key && s.waiterDue now wt)

/-- The waiters whose timer has fired at the time `now` run to their end: each
does `s.sm.Delete(key)` and `s.timers.Delete(key)`. -/
def HTTPProxyPool.fire {P E : Type} (s : HTTPProxyPool P E) (now : Nat) : HTTPProxyPool P E :=
  { s with sm := fun k => if s.evicts now k then none else s.sm k,
           timers := fun k => if s.evicts now k then none else s.timers k,
           waiters := s.waiters.filter (fun wt => !s.waiterDue now wt) }

/-- A call of `HTTPProxyPool.Get`: its time and its arguments. -/
structure PoolCall where
  now : Nat
  src : Source
  invoke : Bool

/-- The key of a call in the pool. -/
def PoolCall.key (c : PoolCall) : Str :=
  c.src.GetKey ++ FormatBool c.invoke

/-- A call of `Get` in the sequential model: the timers due at its time fire first. -/
def HTTPProxyPool.GetAt {P E W : Type}
    (get : Source → Bool → W → (Option P × Option E) × W)
    (s : HTTPProxyPool P E) (c : PoolCall) (w : W) :
    (Option P × Option E) × HTTPProxyPool P E × W :=
  HTTPProxyPool.Get get (s.fire c.now) c.now c.src c.invoke w

/-- The calls of a list, one after another: the results in order, the pool and the
outside afterwards. -/
def runPool {P E W : Type} (get : Source → Bool → W → (Option P × Option E) × W) :
    List PoolCall → HTTPProxyPool P E → W →
      List (Option P × Option E) × HTTPProxyPool P E × W
  | [], s, w => ([], s, w)
  | c :: cs, s, w =>
    let r := HTTPProxyPool.GetAt get s c w
    let rest := runPool get cs r.2.1 r.2.2
    (r.1 :: rest.1, rest.2)

/-- Whether each call of a list comes less than `ttl` after the call before it,
the first one after the time `prev`. -/
def withinTTL (ttl : Nat) : Nat → List PoolCall → Bool
  | _, [] => true
  | prev, c :: cs => decide (c.now < prev + ttl) && withinTTL ttl c.now cs

/-- What holds of every pool the calls of `Get` and the firing of timers reach from
`NewHTTPProxyPool`: each timer held in `timers` has its waiter, each instance held
in `sm` was allocated before, and `expire` is the TTL. -/
def PoolInv {P E : Type} (s : HTTPProxyPool P E) : Prop :=
  (∀ k t, s.timers k = some t → (k, t.id) ∈ s.waiters) ∧
  (∀ k e, s.sm k = some e → e.id < s.proxiesMade) ∧
  s.expire = HTTP_PROXY_TTL * Second

/-- The eviction of `k` is done or pending for the time `d`: the pool holds no entry
of `k`, or it holds a timer of `k` with the deadline `d` whose waiter is waiting. -/
def EvictionPending {P E : Type} (k : Str) (d : Nat) (s : HTTPProxyPool P E) : Prop :=
  (s.sm k = none ∧ s.timers k = none) ∨
  ∃ t, s.timers k = some t ∧ t.deadline = d ∧ (k, t.id) ∈ s.waiters

/-! ## Vocabulary of the statements -/

/-- The text of `s` before its first `c`; all of `s` when it has no `c`. -/
def beforeFirst (c : Char) (s : Str) : Str :=
  s.takeWhile (fun x => x != c)

/-- The text of `s` after its first `c`; empty when it has no `c`. -/
def afterFirst (c : Char) (s : Str) : Str :=
  (s.dropWhile (fun x => x != c)).drop 1

/-- The identifier segment of a request: the path after its first byte, up to
the first following `/`. -/
def identifier (url : URL) : Str :=
  beforeFirst '/' (url.Path.drop 1)

/-- The normalized path `Clean("/" + rest)` of a request, `rest` being what
follows the `/` that ends the identifier segment. -/
def normalizedPath (url : URL) : Str :=
  Clean ('/' :: afterFirst '/' (url.Path.drop 1))

/-- A path element that `Clean` keeps: not empty, without `/`, and neither `.` nor `..`. -/
def GoodSeg (s : Str) : Prop :=
  s ≠ [] ∧ '/' ∉ s ∧ s ≠ ['.'] ∧ s ≠ ['.', '.']

/-- The elements of a path, each one after a `/`. -/
def flat : List Str → Str
  | [] => []
  | s :: ss => '/' :: s ++ flat ss

/-- The rooted path with the given elements; the root `/` when there is none. -/
def render (segs : List Str) : Str :=
  if segs = [] then ['/'] else flat segs

/-! ## Package `strings`: lemmas -/

theorem Contains_iff (s : Str) (c : Char) : Contains s c = true ↔ c ∈ s := by
  unfold Contains
  simp only [List.any_eq_true, beq_iff_eq]
  constructor
  · rintro ⟨x, hx, rfl⟩; exact hx
  · intro h; exact ⟨c, h, rfl⟩

theorem beforeFirst_of_not_mem {c : Char} {s : Str} (h : c ∉ s) : beforeFirst c s = s := by
  unfold beforeFirst
  rw [List.takeWhile_eq_self_iff]
  intro x hx
  have : x ≠ c := fun e => h (e ▸ hx)
  simpa using this

theorem afterFirst_of_not_mem {c : Char} {s : Str} (h : c ∉ s) : afterFirst c s = [] := by
  unfold afterFirst
  have : s.dropWhile (fun x => x != c) = [] := by
    rw [List.dropWhile_eq_nil_iff]
    intro x hx
    have : x ≠ c := fun e => h (e ▸ hx)
    simpa using this
  rw [this]; rfl

theorem beforeFirst_append {c : Char} (a b : Str) (h : c ∉ a) :
    beforeFirst c (a ++ c :: b) = a := by
  unfold beforeFirst
  induction a with
  | nil => simp
  | cons x xs ih =>
    have hx : x ≠ c := fun e => h (by simp [e])
    have hxs : c ∉ xs := fun e => h (by simp [e])
    simp [List.takeWhile_cons, hx, ih hxs]

theorem afterFirst_append {c : Char} (a b : Str) (h : c ∉ a) :
    afterFirst c (a ++ c :: b) = b := by
  unfold afterFirst
  induction a with
  | nil => simp
  | cons x xs ih =>
    have hx : x ≠ c := fun e => h (by simp [e])
    have hxs : c ∉ xs := fun e => h (by simp [e])
    simp [List.dropWhile_cons, hx, ih hxs]

theorem beforeFirst_not_mem (c : Char) (s : Str) : c ∉ beforeFirst c s := by
  unfold beforeFirst
  intro h
  have := List.mem_takeWhile_imp h
  simp at this

theorem before_after_first {c : Char} {s : Str} (h : c ∈ s) :
    s = beforeFirst c s ++ c :: afterFirst c s := by
  unfold beforeFirst afterFirst
  induction s with
  | nil => simp at h
  | cons x xs ih =>
    by_cases hx : x = c
    · subst hx; simp
    · have hxs : c ∈ xs := by
        rcases List.mem_cons.1 h with e | e
        · exact absurd e.symm hx
        · exact e
      have := ih hxs
      simp only [List.takeWhile_cons, List.dropWhile_cons, bne_iff_ne, ne_eq, hx,
        not_false_eq_true, decide_True, ite_true, List.cons_append, List.cons.injEq, true_and]
      exact this

theorem exists_last_split {c : Char} {s : Str} (h : c ∈ s) :
    ∃ a b, s = a ++ c :: b ∧ c ∉ b := by
  induction s with
  | nil => simp at h
  | cons x xs ih =>
    by_cases hxs : c ∈ xs
    · obtain ⟨a, b, hab, hb⟩ := ih hxs
      exact ⟨x :: a, b, by rw [hab]; rfl, hb⟩
    · have hx : c = x := by
        rcases List.mem_cons.1 h with e | e
        · exact e
        · exact absurd e hxs
      exact ⟨[], xs, by rw [hx]; rfl, hxs⟩

theorem Index_of_not_mem {c : Char} {s : Str} (h : c ∉ s) : Index s c = -1 := by
  induction s with
  | nil => rfl
  | cons x xs ih =>
    have hx : x ≠ c := fun e => h (by simp [e])
    have hxs : c ∉ xs := fun e => h (by simp [e])
    simp [Index, hx, ih hxs]

theorem Index_of_mem {c : Char} {s : Str} (h : c ∈ s) :
    Index s c = ((beforeFirst c s).length : Int) := by
  induction s with
  | nil => simp at h
  | cons x xs ih =>
    by_cases hx : x = c
    · subst hx; simp [Index, beforeFirst]
    · have hxs : c ∈ xs := by
        rcases List.mem_cons.1 h with e | e
        · exact absurd e.symm hx
        · exact e
      have e1 := ih hxs
      have : ¬ Index xs c < 0 := by rw [e1]; omega
      simp only [Index, hx, if_false, this, e1]
      simp [beforeFirst, List.takeWhile_cons, hx]

theorem LastIndex_of_not_mem {c : Char} {s : Str} (h : c ∉ s) : LastIndex s c = -1 := by
  induction s with
  | nil => rfl
  | cons x xs ih =>
    have hx : x ≠ c := fun e => h (by simp [e])
    have hxs : c ∉ xs := fun e => h (by simp [e])
    simp [LastIndex, hx, ih hxs]

theorem LastIndex_append {c : Char} (a b : Str) (h : c ∉ b) :
    LastIndex (a ++ c :: b) c = (a.length : Int) := by
  induction a with
  | nil => simp [LastIndex, LastIndex_of_not_mem h]
  | cons x xs ih =>
    simp only [List.cons_append, LastIndex, ih]
    simp
    omega

theorem SplitN_two_of_mem {c : Char} {s : Str} (h : c ∈ s) :
    SplitN s c 2 = [beforeFirst c s, afterFirst c s] := by
  have hi := Index_of_mem h
  obtain ⟨a, b, ha, hb, hs⟩ :
      ∃ a b, beforeFirst c s = a ∧ afterFirst c s = b ∧ s = a ++ c :: b :=
    ⟨_, _, rfl, rfl, before_after_first h⟩
  rw [ha] at hi
  rw [ha, hb]
  have hmin : min 2 (s.length + 1) - 1 = 1 := by
    have : 0 < s.length := by rw [hs]; simp
    omega
  unfold SplitN
  rw [if_neg (by decide), hmin]
  have hnot : ¬ Index s c < 0 := by rw [hi]; omega
  have e1 : Int.toNat (a.length : Int) = a.length := Int.toNat_ofNat _
  have e2 : Int.toNat ((a.length : Int) + 1) = a.length + 1 := by omega
  simp only [genSplitLoop, hnot, if_false, sliceTo, sliceFrom, hi, e1, e2]
  subst hs
  have hnot2 : ¬ (a.length : Int) < 0 := by omega
  rw [List.take_left, List.drop_append_eq_append_drop, if_neg hnot2]
  simp

theorem SplitN_two_of_not_mem {c : Char} {s : Str} (h : c ∉ s) : SplitN s c 2 = [s] := by
  unfold SplitN
  rw [if_neg (by decide)]
  have hi := Index_of_not_mem h
  cases hm : min 2 (s.length + 1) - 1 with
  | zero => rfl
  | succ n => simp [genSplitLoop, hi]

theorem SplitN_two_head (c : Char) (s : Str) :
    (SplitN s c 2).getD 0 [] = beforeFirst c s := by
  by_cases h : c ∈ s
  · rw [SplitN_two_of_mem h]; rfl
  · rw [SplitN_two_of_not_mem h, beforeFirst_of_not_mem h]; rfl

theorem SplitN_two_length (c : Char) (s : Str) :
    1 < (SplitN s c 2).length ↔ c ∈ s := by
  by_cases h : c ∈ s
  · rw [SplitN_two_of_mem h]; simp [h]
  · rw [SplitN_two_of_not_mem h]; simp [h]

theorem SplitN_two_second (c : Char) (s : Str) :
    (if 1 < (SplitN s c 2).length then (SplitN s c 2).getD 1 [] else []) = afterFirst c s := by
  by_cases h : c ∈ s
  · rw [SplitN_two_of_mem h]; simp
  · rw [SplitN_two_of_not_mem h, afterFirst_of_not_mem h]; simp

/-! ## `filepath.Clean` on rooted paths -/

theorem takeWhile_ne_eq_nil (rest : Str) :
    rest.takeWhile (fun x => x != '/') = [] ↔ rest = [] ∨ rest.head? = some '/' := by
  cases rest with
  | nil => simp
  | cons a r =>
    by_cases h : a = '/'
    · simp [h]
    · simp [List.takeWhile_cons, h]

theorem dot_case_iff (c : Char) (rest : Str) :
    (c = '.' ∧ (rest = [] ∨ rest.head? = some '/')) ↔
      c :: rest.takeWhile (fun x => x != '/') = ['.'] := by
  rw [← takeWhile_ne_eq_nil]
  simp

theorem dotdot_case_iff (c : Char) (rest : Str) :
    (c = '.' ∧ rest.head? = some '.' ∧ (rest.tail = [] ∨ rest.tail.head? = some '/')) ↔
      c :: rest.takeWhile (fun x => x != '/') = ['.', '.'] := by
  cases rest with
  | nil => simp
  | cons a r =>
    rw [show (a :: r).tail = r from rfl, ← takeWhile_ne_eq_nil]
    by_cases h : a = '/'
    · subst h; simp
    · simp [List.takeWhile_cons, h]

theorem cleanLoop_nil (rooted : Bool) (fuel : Nat) (out : Str) (dotdot : Nat) :
    cleanLoop rooted fuel [] out dotdot = out := by
  cases fuel <;> rfl

theorem cleanLoop_slash (rooted : Bool) (fuel : Nat) (rest out : Str) (dotdot : Nat) :
    cleanLoop rooted (fuel + 1) ('/' :: rest) out dotdot = cleanLoop rooted fuel rest out dotdot := by
  simp [cleanLoop]

theorem cleanLoop_dot (rooted : Bool) (fuel : Nat) (c : Char) (rest out : Str) (dotdot : Nat)
    (hc : c ≠ '/') (h : c :: rest.takeWhile (fun x => x != '/') = ['.']) :
    cleanLoop rooted (fuel + 1) (c :: rest) out dotdot = cleanLoop rooted fuel rest out dotdot := by
  rw [← dot_case_iff] at h
  simp only [cleanLoop, if_neg hc, if_pos h]

theorem cleanLoop_dotdot (fuel : Nat) (c : Char) (rest out : Str)
    (hc : c ≠ '/') (h : c :: rest.takeWhile (fun x => x != '/') = ['.', '.']) :
    cleanLoop true (fuel + 1) (c :: rest) out 1 =
      cleanLoop true fuel rest.tail (if 1 < out.length then backtrack out 1 else out) 1 := by
  have h2 : ¬ (c = '.' ∧ (rest = [] ∨ rest.head? = some '/')) := by
    rw [dot_case_iff, h]; decide
  rw [← dotdot_case_iff] at h
  simp only [cleanLoop, if_neg hc, if_neg h2, if_pos h]
  split <;> simp

theorem cleanLoop_elem (fuel : Nat) (c : Char) (rest out : Str)
    (hc : c ≠ '/') (h1 : c :: rest.takeWhile (fun x => x != '/') ≠ ['.'])
    (h2 : c :: rest.takeWhile (fun x => x != '/') ≠ ['.', '.']) :
    cleanLoop true (fuel + 1) (c :: rest) out 1 =
      cleanLoop true fuel (rest.dropWhile (fun x => x != '/'))
        ((if out.length = 1 then out else out ++ ['/']) ++
          c :: rest.takeWhile (fun x => x != '/')) 1 := by
  have h1 : ¬ (c = '.' ∧ (rest = [] ∨ rest.head? = some '/')) :=
    fun h => h1 ((dot_case_iff c rest).1 h)
  have h2 : ¬ (c = '.' ∧ rest.head? = some '.' ∧
      (rest.tail = [] ∨ rest.tail.head? = some '/')) :=
    fun h => h2 ((dotdot_case_iff c rest).1 h)
  have e1 : (c :: rest).dropWhile (fun x => x != '/') = rest.dropWhile (fun x => x != '/') := by
    simp [List.dropWhile_cons, hc]
  have e2 : (c :: rest).takeWhile (fun x => x != '/') = c :: rest.takeWhile (fun x => x != '/') := by
    simp [List.takeWhile_cons, hc]
  simp only [cleanLoop, if_neg hc, if_neg h1, if_neg h2, e1, e2]
  by_cases hl : out.length = 1
  · simp [hl]
  · simp [hl]

theorem GoodSeg_elem (c : Char) (rest : Str) (hc : c ≠ '/')
    (h1 : c :: rest.takeWhile (fun x => x != '/') ≠ ['.'])
    (h2 : c :: rest.takeWhile (fun x => x != '/') ≠ ['.', '.']) :
    GoodSeg (c :: rest.takeWhile (fun x => x != '/')) := by
  refine ⟨by simp, ?_, h1, h2⟩
  intro h
  rcases List.mem_cons.1 h with e | e
  · exact hc e.symm
  · have := List.mem_takeWhile_imp e
    simp at this

theorem flat_append (a b : List Str) : flat (a ++ b) = flat a ++ flat b := by
  induction a with
  | nil => rfl
  | cons s ss ih => simp [flat, ih]

theorem flat_length_ge (segs : List Str) (h : segs ≠ []) (hg : ∀ s ∈ segs, GoodSeg s) :
    2 ≤ (flat segs).length := by
  cases segs with
  | nil => exact absurd rfl h
  | cons s ss =>
    have : s ≠ [] := (hg s (by simp)).1
    have : 0 < s.length := List.length_pos.2 this
    simp [flat]
    omega

theorem render_nil : render [] = ['/'] := rfl

theorem render_of_ne {segs : List Str} (h : segs ≠ []) : render segs = flat segs := by
  simp [render, h]

theorem render_length_eq_one (segs : List Str) (hg : ∀ s ∈ segs, GoodSeg s) :
    (render segs).length = 1 ↔ segs = [] := by
  constructor
  · intro h
    by_contra hne
    rw [render_of_ne hne] at h
    have := flat_length_ge segs hne hg
    omega
  · rintro rfl; rfl

theorem render_snoc (segs : List Str) (e : Str) (hg : ∀ s ∈ segs, GoodSeg s) :
    render (segs ++ [e]) =
      (if (render segs).length = 1 then render segs else render segs ++ ['/']) ++ e := by
  rw [render_of_ne (by simp)]
  by_cases h : segs = []
  · subst h; simp [render, flat]
  · have hl : ¬ (render segs).length = 1 := fun e => h ((render_length_eq_one segs hg).1 e)
    rw [if_neg hl, render_of_ne h, flat_append]
    simp [flat]

theorem render_ne_nil (segs : List Str) : render segs ≠ [] := by
  cases segs with
  | nil => simp [render]
  | cons s ss => simp [render, flat]

theorem backtrackLoop_descend (out : Str) (dotdot base : Nat) (k : Nat)
    (hb : dotdot ≤ base) (hstop : base = dotdot ∨ out.getD base '/' = '/')
    (hk : ∀ j, base < j → j ≤ base + k → out.getD j '/' ≠ '/') :
    backtrackLoop out dotdot (base + k) = base := by
  induction k with
  | zero =>
    cases base with
    | zero => rfl
    | succ b =>
      have : ¬ (dotdot < b + 1 ∧ out.getD (b + 1) '/' ≠ '/') := by
        rintro ⟨h1, h2⟩
        rcases hstop with e | e
        · omega
        · exact h2 e
      simp only [Nat.add_zero, backtrackLoop, if_neg this]
  | succ k ih =>
    have h1 : dotdot < base + k + 1 := by omega
    have h2 : out.getD (base + k + 1) '/' ≠ '/' := hk _ (by omega) (by omega)
    rw [← Nat.add_assoc]
    simp only [backtrackLoop, if_pos (And.intro h1 h2)]
    exact ih (fun j hj1 hj2 => hk j hj1 (by omega))

theorem backtrack_render_snoc (segs : List Str) (e : Str)
    (hg : ∀ s ∈ segs, GoodSeg s) (he : GoodSeg e) :
    backtrack (render (segs ++ [e])) 1 = render segs := by
  have hne : '/' ∉ e := he.2.1
  have hlen : 0 < e.length := List.length_pos.2 he.1
  rw [render_of_ne (by simp), flat_append]
  have hfe : flat [e] = '/' :: e := by simp [flat]
  rw [hfe]
  unfold backtrack
  by_cases h : segs = []
  · subst h
    simp only [flat, List.nil_append, List.length_cons, Nat.add_sub_cancel, render_nil]
    obtain ⟨k, hk⟩ : ∃ k, e.length = 1 + k := ⟨e.length - 1, by omega⟩
    rw [hk, backtrackLoop_descend ('/' :: e) 1 1 k (le_refl _) (Or.inl rfl)]
    · rfl
    · intro j hj1 hj2 hj
      obtain ⟨i, rfl⟩ : ∃ i, j = i + 1 := ⟨j - 1, by omega⟩
      rw [List.getD_cons_succ] at hj
      have hi : i < e.length := by omega
      rw [List.getD_eq_getElem _ _ hi] at hj
      exact hne (hj ▸ List.getElem_mem _)
  · have h2 := flat_length_ge segs h hg
    rw [render_of_ne h]
    have hl : (flat segs ++ '/' :: e).length - 1 = (flat segs).length + e.length := by
      simp
    rw [hl, backtrackLoop_descend _ 1 (flat segs).length e.length (by omega)]
    · simp
    · right
      rw [List.getD_append_right _ _ _ _ (le_refl _)]
      simp
    · intro j hj1 hj2 hj
      rw [List.getD_append_right _ _ _ _ (by omega)] at hj
      obtain ⟨i, hi⟩ : ∃ i, j - (flat segs).length = i + 1 := ⟨j - (flat segs).length - 1, by omega⟩
      rw [hi, List.getD_cons_succ] at hj
      have hi2 : i < e.length := by omega
      rw [List.getD_eq_getElem _ _ hi2] at hj
      exact hne (hj ▸ List.getElem_mem _)

theorem length_dropWhile_le (p : Char → Bool) (l : Str) : (l.dropWhile p).length ≤ l.length :=
  (List.dropWhile_suffix p).length_le

theorem cleanLoop_rooted_render (fuel : Nat) :
    ∀ (path : Str) (segs : List Str), path.length ≤ fuel → (∀ s ∈ segs, GoodSeg s) →
      ∃ segs2, (∀ s ∈ segs2, GoodSeg s) ∧
        cleanLoop true fuel path (render segs) 1 = render segs2 := by
  induction fuel with
  | zero =>
    intro path segs hl hg
    exact ⟨segs, hg, rfl⟩
  | succ fuel ih =>
    intro path segs hl hg
    cases path with
    | nil => exact ⟨segs, hg, rfl⟩
    | cons c rest =>
      have hrest : rest.length ≤ fuel := by simpa using hl
      by_cases hc : c = '/'
      · subst hc
        rw [cleanLoop_slash]
        exact ih rest segs hrest hg
      · by_cases h1 : c :: rest.takeWhile (fun x => x != '/') = ['.']
        · rw [cleanLoop_dot true fuel c rest _ 1 hc h1]
          exact ih rest segs hrest hg
        · by_cases h2 : c :: rest.takeWhile (fun x => x != '/') = ['.', '.']
          · rw [cleanLoop_dotdot fuel c rest _ hc h2]
            have htail : rest.tail.length ≤ fuel := by
              have : rest.tail.length ≤ rest.length := by simp
              omega
            rcases List.eq_nil_or_concat segs with e | ⟨init, last, e⟩
            · subst e
              exact ih rest.tail [] htail hg
            · rw [List.concat_eq_append] at e
              subst e
              have hgi : ∀ s ∈ init, GoodSeg s := fun s hs => hg s (by simp [hs])
              have hgl : GoodSeg last := hg last (by simp)
              have hlt : 1 < (render (init ++ [last])).length := by
                have := flat_length_ge (init ++ [last]) (by simp) hg
                rw [render_of_ne (by simp)]
                omega
              rw [if_pos hlt, backtrack_render_snoc init last hgi hgl]
              exact ih rest.tail init htail hgi
          · rw [cleanLoop_elem fuel c rest _ hc h1 h2, ← render_snoc segs _ hg]
            have hge := GoodSeg_elem c rest hc h1 h2
            refine ih _ _ ?_ ?_
            · exact le_trans (length_dropWhile_le _ rest) hrest
            · intro s hs
              rcases List.mem_append.1 hs with e | e
              · exact hg s e
              · rw [List.mem_singleton.1 e]; exact hge

theorem Clean_rooted (s : Str) :
    ∃ segs, (∀ x ∈ segs, GoodSeg x) ∧ Clean ('/' :: s) = render segs := by
  obtain ⟨segs, hg, h⟩ := cleanLoop_rooted_render (s.length + 1) s [] (by omega) (by simp)
  refine ⟨segs, hg, ?_⟩
  have hne : (render segs).length ≠ 0 := by
    intro e
    exact render_ne_nil segs (List.length_eq_zero.1 e)
  rw [render_nil] at h
  simp only [Clean]
  simp [h, hne]

theorem takeWhile_append_flat (a : Str) (rem : List Str) (ha : '/' ∉ a) :
    (a ++ flat rem).takeWhile (fun x => x != '/') = a ∧
    (a ++ flat rem).dropWhile (fun x => x != '/') = flat rem := by
  have hall : ∀ x ∈ a, (fun x => x != '/') x = true := by
    intro x hx
    have : x ≠ '/' := fun e => ha (e ▸ hx)
    simpa using this
  rw [List.takeWhile_append_of_pos hall, List.dropWhile_append_of_pos hall]
  cases rem with
  | nil => simp [flat]
  | cons s ss => simp [flat]

theorem cleanLoop_flat (rem : List Str) :
    ∀ (done : List Str) (fuel : Nat), (flat rem).length ≤ fuel →
      (∀ s ∈ done, GoodSeg s) → (∀ s ∈ rem, GoodSeg s) →
      cleanLoop true fuel (flat rem) (render done) 1 = render (done ++ rem) := by
  induction rem with
  | nil =>
    intro done fuel _ _ _
    rw [List.append_nil]
    exact cleanLoop_nil _ _ _ _
  | cons s rem ih =>
    intro done fuel hl hd hr
    have hs : GoodSeg s := hr s (by simp)
    obtain ⟨c, s1, rfl⟩ : ∃ c s1, s = c :: s1 := by
      cases s with
      | nil => exact absurd rfl hs.1
      | cons c s1 => exact ⟨c, s1, rfl⟩
    have hc : c ≠ '/' := fun e => hs.2.1 (by simp [e])
    have hs1 : '/' ∉ s1 := fun e => hs.2.1 (by simp [e])
    obtain ⟨ht, hdw⟩ := takeWhile_append_flat s1 rem hs1
    obtain ⟨f, rfl⟩ : ∃ f, fuel = f + 2 := by
      refine ⟨fuel - 2, ?_⟩
      simp [flat] at hl
      omega
    have hf : (flat rem).length ≤ f := by
      simp [flat] at hl
      omega
    have e : flat ((c :: s1) :: rem) = '/' :: c :: (s1 ++ flat rem) := by simp [flat]
    rw [e, cleanLoop_slash,
      cleanLoop_elem f c (s1 ++ flat rem) _ hc (by rw [ht]; exact hs.2.2.1)
        (by rw [ht]; exact hs.2.2.2),
      ht, hdw, ← render_snoc done _ hd]
    have := ih (done ++ [c :: s1]) f hf
      (by
        intro x hx
        rcases List.mem_append.1 hx with h | h
        · exact hd x h
        · rw [List.mem_singleton.1 h]; exact hs)
      (fun x hx => hr x (by simp [hx]))
    rw [this, List.append_assoc]
    rfl

theorem Clean_slash_eq (t : Str) (h : cleanLoop true (t.length + 1) t ['/'] 1 ≠ []) :
    Clean ('/' :: t) = cleanLoop true (t.length + 1) t ['/'] 1 := by
  have hne : (cleanLoop true (t.length + 1) t ['/'] 1).length ≠ 0 :=
    fun e => h (List.length_eq_zero.1 e)
  simp only [Clean]
  simp [hne]

theorem Clean_render (segs : List Str) (hg : ∀ s ∈ segs, GoodSeg s) :
    Clean (render segs) = render segs := by
  cases segs with
  | nil => rfl
  | cons s rem =>
    have e : render (s :: rem) = '/' :: (s ++ flat rem) := by simp [render, flat]
    have key : cleanLoop true ((s ++ flat rem).length + 1) (s ++ flat rem) ['/'] 1 =
        render (s :: rem) := by
      have := cleanLoop_flat (s :: rem) [] ((s ++ flat rem).length + 2)
        (by simp [flat]) (by simp) hg
      rw [show flat (s :: rem) = '/' :: (s ++ flat rem) by simp [flat], cleanLoop_slash] at this
      exact this
    rw [e, Clean_slash_eq _ (by rw [key]; exact render_ne_nil _), key, e]

/-- The function `Clean` is idempotent on rooted paths. -/
theorem Clean_idem_rooted (s : Str) : Clean (Clean ('/' :: s)) = Clean ('/' :: s) := by
  obtain ⟨segs, hg, h⟩ := Clean_rooted s
  rw [h, Clean_render segs hg]

/-- More fuel than the number of unread bytes does not change the result of the
main loop: the loop of `Clean` always ends by reading its whole input. -/
theorem cleanLoop_fuel_succ (rooted : Bool) (fuel : Nat) :
    ∀ (path out : Str) (dotdot : Nat), path.length ≤ fuel →
      cleanLoop rooted (fuel + 1) path out dotdot = cleanLoop rooted fuel path out dotdot := by
  induction fuel with
  | zero =>
    intro path out dotdot h
    have : path = [] := List.length_eq_zero.1 (Nat.le_zero.1 h)
    subst this
    rfl
  | succ f ih =>
    intro path out dotdot h
    cases path with
    | nil => rfl
    | cons c rest =>
      have hr : rest.length ≤ f := by simpa using h
      have ht : rest.tail.length ≤ f := by
        have : rest.tail.length ≤ rest.length := by simp
        omega
      rw [cleanLoop.eq_3 rooted out dotdot (f + 1) c rest, cleanLoop.eq_3 rooted out dotdot f c rest]
      by_cases hc : c = '/'
      · simp only [if_pos hc]
        exact ih _ _ _ hr
      · have hd : ((c :: rest).dropWhile (fun x => x != '/')).length ≤ f := by
          have e : (c :: rest).dropWhile (fun x => x != '/') =
              rest.dropWhile (fun x => x != '/') := by
            simp [List.dropWhile_cons, hc]
          rw [e]
          exact le_trans (List.dropWhile_suffix _).length_le hr
        simp only [if_neg hc]
        split_ifs <;> first | exact ih _ _ _ hr | exact ih _ _ _ ht | exact ih _ _ _ hd

theorem cleanLoop_fuel (rooted : Bool) (path out : Str) (dotdot : Nat) (fuel : Nat)
    (h : path.length ≤ fuel) :
    cleanLoop rooted fuel path out dotdot = cleanLoop rooted path.length path out dotdot := by
  induction fuel with
  | zero =>
    have : path.length = 0 := Nat.le_zero.1 h
    rw [this]
  | succ f ih =>
    by_cases e : path.length = f + 1
    · rw [e]
    · have hf : path.length ≤ f := by omega
      rw [cleanLoop_fuel_succ rooted f path out dotdot hf, ih hf]

theorem flat_prefix (segs : List Str) (hg : ∀ s ∈ segs, GoodSeg s) :
    ∀ pre rest : Str, flat segs = pre ++ rest →
      pre = [] ∨ ∃ init part, pre = flat init ++ '/' :: part ∧
        (∀ s ∈ init, GoodSeg s) ∧ '/' ∉ part := by
  induction segs with
  | nil =>
    intro pre rest h
    left
    have : pre ++ rest = [] := h.symm
    exact (List.append_eq_nil.1 this).1
  | cons s ss ih =>
    intro pre rest h
    have hs : GoodSeg s := hg s (by simp)
    have hss : ∀ x ∈ ss, GoodSeg x := fun x hx => hg x (by simp [hx])
    cases pre with
    | nil => exact Or.inl rfl
    | cons p pre1 =>
      right
      have e : flat (s :: ss) = '/' :: (s ++ flat ss) := by simp [flat]
      rw [e, List.cons_append, List.cons.injEq] at h
      obtain ⟨hp, h⟩ := h
      subst hp
      rcases List.append_eq_append_iff.1 h with ⟨a, ha1, ha2⟩ | ⟨c, hc1, _⟩
      · rcases ih hss a rest ha2 with e0 | ⟨init, part, e1, e2, e3⟩
        · subst e0
          refine ⟨[], s, ?_, by simp, hs.2.1⟩
          rw [ha1]; simp [flat]
        · refine ⟨s :: init, part, ?_, ?_, e3⟩
          · rw [ha1, e1]; simp [flat]
          · intro x hx
            rcases List.mem_cons.1 hx with h1 | h1
            · rw [h1]; exact hs
            · exact e2 x h1
      · refine ⟨[], pre1, by simp [flat], by simp, ?_⟩
        intro hmem
        exact hs.2.1 (by rw [hc1]; simp [hmem])

theorem Clean_prefix_of_render (segs : List Str) (hg : ∀ s ∈ segs, GoodSeg s)
    (pre rest : Str) (hne : pre ≠ []) (h : render segs = pre ++ rest)
    (hend : pre = ['/'] ∨ (¬ ['/'] <:+ pre ∧ ¬ ['/', '.'] <:+ pre ∧ ¬ ['/', '.', '.'] <:+ pre)) :
    Clean pre = pre := by
  rcases hend with e | ⟨n1, n2, n3⟩
  · rw [e]; rfl
  · have hflat : ∃ init part, pre = flat init ++ '/' :: part ∧
        (∀ s ∈ init, GoodSeg s) ∧ '/' ∉ part := by
      by_cases hs : segs = []
      · subst hs
        rw [render_nil] at h
        cases pre with
        | nil => exact absurd rfl hne
        | cons p pre1 =>
          rw [List.cons_append, List.cons.injEq] at h
          have : pre1 = [] := (List.append_eq_nil.1 h.2.symm).1
          exact ⟨[], [], by rw [← h.1, this]; rfl, by simp, by simp⟩
      · rw [render_of_ne hs] at h
        rcases flat_prefix segs hg pre rest h with e | e
        · exact absurd e hne
        · exact e
    obtain ⟨init, part, e1, e2, e3⟩ := hflat
    have hgood : GoodSeg part := by
      refine ⟨?_, e3, ?_, ?_⟩
      · intro e
        apply n1
        rw [e1, e]
        exact ⟨flat init, rfl⟩
      · intro e
        apply n2
        rw [e1, e]
        exact ⟨flat init, rfl⟩
      · intro e
        apply n3
        rw [e1, e]
        exact ⟨flat init, rfl⟩
    have hr : pre = render (init ++ [part]) := by
      rw [render_of_ne (by simp), flat_append, e1]
      simp [flat]
    rw [hr]
    apply Clean_render
    intro s hs
    rcases List.mem_append.1 hs with h1 | h1
    · exact e2 s h1
    · rw [List.mem_singleton.1 h1]; exact hgood

theorem render_suffix_last (init : List Str) (last ys : Str) (hl : '/' ∉ last)
    (hy : '/' ∉ ys) (h : ('/' :: ys) <:+ render (init ++ [last])) : ys = last := by
  obtain ⟨x, hx⟩ := h
  rw [render_of_ne (by simp), flat_append] at hx
  have e : flat [last] = '/' :: last := by simp [flat]
  rw [e] at hx
  have h1 := LastIndex_append x ys hy
  have h2 := LastIndex_append (flat init) last hl
  rw [hx, h2] at h1
  have hlen : x.length = (flat init).length := by omega
  exact ((List.append_inj hx hlen).2 |> List.cons.inj).2

theorem render_no_bad_ending (segs : List Str) (hg : ∀ s ∈ segs, GoodSeg s) :
    render segs = ['/'] ∨ (¬ ['/'] <:+ render segs ∧ ¬ ['/', '.'] <:+ render segs ∧
      ¬ ['/', '.', '.'] <:+ render segs) := by
  rcases List.eq_nil_or_concat segs with e | ⟨init, last, e⟩
  · left; rw [e]; rfl
  · right
    rw [List.concat_eq_append] at e
    subst e
    have hgl : GoodSeg last := hg last (by simp)
    refine ⟨?_, ?_, ?_⟩
    · intro h
      exact hgl.1 (render_suffix_last init last [] hgl.2.1 (by simp) h).symm
    · intro h
      exact hgl.2.2.1 (render_suffix_last init last ['.'] hgl.2.1 (by decide) h).symm
    · intro h
      exact hgl.2.2.2 (render_suffix_last init last ['.', '.'] hgl.2.1 (by decide) h).symm

/-- A rooted path is a fixed point of `Clean` exactly when it is `/` or ends in none
of `/`, `/.`, `/..`, provided it is the beginning of a cleaned rooted path. -/
theorem Clean_prefix_iff (segs : List Str) (hg : ∀ s ∈ segs, GoodSeg s)
    (t rest : Str) (h : render segs = '/' :: t ++ rest) :
    Clean ('/' :: t) = '/' :: t ↔
      ('/' :: t = ['/'] ∨ (¬ ['/'] <:+ '/' :: t ∧ ¬ ['/', '.'] <:+ '/' :: t ∧
        ¬ ['/', '.', '.'] <:+ '/' :: t)) := by
  constructor
  · intro hc
    obtain ⟨segs2, hg2, h2⟩ := Clean_rooted t
    rw [hc] at h2
    rw [h2]
    exact render_no_bad_ending segs2 hg2
  · intro hend
    exact Clean_prefix_of_render segs hg ('/' :: t) rest (by simp) h hend

/-! ## The parser: lemmas -/

theorem modExists_iff (t : Str) (mods : List Str) : modExists t mods = true ↔ t ∈ mods := by
  induction mods with
  | nil => simp [modExists]
  | cons v vs ih =>
    by_cases h : t = v
    · simp [modExists, h]
    · simp [modExists, h, ih]

theorem sourceTypeLoop_of_mem {hash : Str} {mods : List Str} (d : Str) (h : hash ∈ mods) :
    sourceTypeLoop hash mods d = hash := by
  induction mods with
  | nil => simp at h
  | cons v vs ih =>
    by_cases e : hash = v
    · simp [sourceTypeLoop, e]
    · have : hash ∈ vs := by
        rcases List.mem_cons.1 h with e1 | e1
        · exact absurd e1 e
        · exact e1
      simp [sourceTypeLoop, e, ih this]

theorem sourceTypeLoop_of_not_mem {hash : Str} {mods : List Str} (d : Str) (h : hash ∉ mods) :
    sourceTypeLoop hash mods d = d := by
  induction mods with
  | nil => rfl
  | cons v vs ih =>
    have e : hash ≠ v := fun e => h (by simp [e])
    have : hash ∉ vs := fun e1 => h (by simp [e1])
    simp [sourceTypeLoop, e, ih this]

theorem extractMod_no_tilde (mods : List Str) {path : Str} (h : '~' ∉ path) :
    extractMod mods path = .ok (path, none) := by
  have : Contains path '~' = false := by
    rw [← Bool.not_eq_true, Contains_iff]; exact h
  simp [extractMod, this]

theorem extractMod_cut (mods : List Str) (pre suf : Str) (h : '~' ∉ suf) :
    extractMod mods (pre ++ '~' :: suf) =
      .ok (pre, if beforeFirst ':' (beforeFirst '/' suf) ∈ mods then
                  some { Type_ := beforeFirst ':' (beforeFirst '/' suf),
                         Path := Clean ('/' :: afterFirst '/' suf),
                         Extra := afterFirst ':' (beforeFirst '/' suf) }
                else none) := by
  have hc : Contains (pre ++ '~' :: suf) '~' = true := by
    rw [Contains_iff]; simp
  have hl := LastIndex_append pre suf h
  have e1 : Int.toNat (pre.length : Int) = pre.length := Int.toNat_ofNat _
  have e2 : Int.toNat ((pre.length : Int) + 1) = pre.length + 1 := by omega
  have hfirst : sliceTo (pre ++ '~' :: suf) (LastIndex (pre ++ '~' :: suf) '~') = pre := by
    rw [hl, sliceTo, e1, List.take_left]
  have hlast : sliceFrom (pre ++ '~' :: suf) (LastIndex (pre ++ '~' :: suf) '~' + 1) = suf := by
    rw [hl, sliceFrom, e2, List.drop_append_eq_append_drop]
    simp
  have ht : (if 1 < (SplitN (beforeFirst '/' suf) ':' 2).length
        then beforeFirst ':' (beforeFirst '/' suf) else beforeFirst '/' suf)
      = beforeFirst ':' (beforeFirst '/' suf) := by
    by_cases hm : ':' ∈ beforeFirst '/' suf
    · rw [if_pos ((SplitN_two_length _ _).2 hm)]
    · rw [if_neg (fun e => hm ((SplitN_two_length _ _).1 e)), beforeFirst_of_not_mem hm]
  have hp : (if 1 < (SplitN suf '/' 2).length then '/' :: (SplitN suf '/' 2).getD 1 []
        else ['/']) = '/' :: afterFirst '/' suf := by
    rw [← SplitN_two_second]
    split <;> rfl
  unfold extractMod
  simp only [hc, Bool.not_true, Bool.false_eq_true, if_false, hfirst, hlast, SplitN_two_head,
    ht, hp, SplitN_two_second]
  by_cases hm : beforeFirst ':' (beforeFirst '/' suf) ∈ mods
  · have := (modExists_iff _ _).2 hm
    simp [this, hm]
  · have : modExists (beforeFirst ':' (beforeFirst '/' suf)) mods = false := by
      rw [← Bool.not_eq_true, modExists_iff]; exact hm
    simp [this, hm]

theorem Parse_eq (mods : List Str) (url : URL) :
    Parse mods url =
      if url.Path = [] then .error "Empty url".toList
      else if identifier url = [] then .error "Empty hash".toList
      else if sourceTypeLoop (identifier url) mods "default".toList = "default".toList ∧
          checkHash (identifier url) = false then
        .error ("Wrong hash=".toList ++ identifier url)
      else
        match extractMod mods (normalizedPath url) with
        | .error err =>
          .error ("Failed to extract mod from path=".toList ++ normalizedPath url ++
            ": ".toList ++ err)
        | .ok (newPath, mod) =>
          .ok { InfoHash := identifier url, Path := newPath,
                Token := url.Query.Get "token".toList,
                Type_ := sourceTypeLoop (identifier url) mods "default".toList, Mod := mod } := by
  have hp : (if 1 < (SplitN (url.Path.drop 1) '/' 2).length
        then '/' :: (SplitN (url.Path.drop 1) '/' 2).getD 1 []
        else ['/']) = '/' :: afterFirst '/' (url.Path.drop 1) := by
    rw [← SplitN_two_second]
    split <;> rfl
  have hs : sliceFrom url.Path 1 = url.Path.drop 1 := rfl
  unfold Parse identifier normalizedPath
  simp only [SplitN_two_head, hs, Bool.not_eq_true', hp]

theorem Parse_ok_cut {mods : List Str} {url : URL} {src : Source} {pre suf : Str}
    (hok : Parse mods url = .ok src)
    (hP : normalizedPath url = pre ++ '~' :: suf) (hlast : '~' ∉ suf) :
    src.InfoHash = identifier url ∧ src.Path = pre ∧
    src.Mod = if beforeFirst ':' (beforeFirst '/' suf) ∈ mods then
        some { Type_ := beforeFirst ':' (beforeFirst '/' suf),
               Path := Clean ('/' :: afterFirst '/' suf),
               Extra := afterFirst ':' (beforeFirst '/' suf) }
      else none := by
  rw [Parse_eq, hP, extractMod_cut mods pre suf hlast] at hok
  split at hok
  · cases hok
  · split at hok
    · cases hok
    · split at hok
      · cases hok
      · simp only [Except.ok.injEq] at hok
        subst hok
        exact ⟨rfl, rfl, rfl⟩

theorem Parse_ok_path {mods : List Str} {url : URL} {src : Source}
    (hok : Parse mods url = .ok src) :
    ('~' ∉ normalizedPath url → src.Path = normalizedPath url) ∧
    ∃ rest, normalizedPath url = src.Path ++ rest := by
  by_cases ht : '~' ∈ normalizedPath url
  · obtain ⟨a, b, hab, hb⟩ := exists_last_split ht
    obtain ⟨_, h2, _⟩ := Parse_ok_cut hok hab hb
    exact ⟨fun h => absurd ht h, '~' :: b, by rw [h2, hab]⟩
  · have hp : src.Path = normalizedPath url := by
      rw [Parse_eq, extractMod_no_tilde mods ht] at hok
      split at hok
      · cases hok
      · split at hok
        · cases hok
        · split at hok
          · cases hok
          · simp only [Except.ok.injEq] at hok
            subst hok
            rfl
    exact ⟨fun _ => hp, [], by rw [hp, List.append_nil]⟩

theorem Parse_ok_path_rooted {mods : List Str} {url : URL} {src : Source}
    (hok : Parse mods url = .ok src) :
    ∃ t rest segs, src.Path = '/' :: t ∧ (∀ s ∈ segs, GoodSeg s) ∧
      render segs = '/' :: t ++ rest := by
  obtain ⟨h1, rest, h2⟩ := Parse_ok_path hok
  obtain ⟨segs, hg, hs⟩ := Clean_rooted (afterFirst '/' (url.Path.drop 1))
  have hP : render segs = src.Path ++ rest := by rw [← hs]; exact h2
  have hhead : ∃ r, render segs = '/' :: r := by
    cases segs with
    | nil => exact ⟨[], rfl⟩
    | cons s ss => exact ⟨s ++ flat ss, by simp [render, flat]⟩
  obtain ⟨r, hr⟩ := hhead
  cases hp : src.Path with
  | nil =>
    exfalso
    by_cases ht : '~' ∈ normalizedPath url
    · obtain ⟨a, b, hab, hb⟩ := exists_last_split ht
      obtain ⟨_, h3, _⟩ := Parse_ok_cut hok hab hb
      rw [hp] at h3
      subst h3
      have : render segs = '~' :: b := by rw [← hs]; exact hab
      rw [hr] at this
      simp at this
    · have := h1 ht
      rw [hp] at this
      exact render_ne_nil segs (by rw [← hs]; exact this.symm)
  | cons c t =>
    rw [hp, hr, List.cons_append, List.cons.injEq] at hP
    refine ⟨t, rest, segs, by rw [← hP.1], hg, ?_⟩
    rw [hr, hP.2]
    rfl

/-- In `Parse` the name `default` doubles as the mark of an identifier that is no
mod name: every configured mod name other than `default` is accepted as identifier
without the hex-content check, with `Type` and `InfoHash` equal to it, and an
accepted identifier that is no mod name has `Type = default`. -/
theorem Parse_mod_route (mods : List Str) (url : URL) :
    (identifier url ∈ mods → identifier url ≠ "default".toList → identifier url ≠ [] →
      ∃ src, Parse mods url = .ok src ∧ src.Type_ = identifier url ∧
        src.InfoHash = identifier url) ∧
    (∀ src, Parse mods url = .ok src → identifier url ∉ mods →
      src.Type_ = "default".toList) := by
  constructor
  · intro hm hd hne
    have hp : url.Path ≠ [] := by
      intro e
      apply hne
      simp [identifier, e, beforeFirst]
    rw [Parse_eq, if_neg hp, if_neg hne, sourceTypeLoop_of_mem _ hm,
      if_neg (fun h => hd h.1)]
    by_cases ht : '~' ∈ normalizedPath url
    · obtain ⟨a, b, hab, hb⟩ := exists_last_split ht
      rw [hab, extractMod_cut mods a b hb]
      exact ⟨_, rfl, rfl, rfl⟩
    · rw [extractMod_no_tilde mods ht]
      exact ⟨_, rfl, rfl, rfl⟩
  · intro src hok hm
    rw [Parse_eq] at hok
    split at hok
    · cases hok
    · split at hok
      · cases hok
      · split at hok
        · cases hok
        · rw [sourceTypeLoop_of_not_mem _ hm] at hok
          split at hok
          · cases hok
          · simp only [Except.ok.injEq] at hok
            subst hok
            rfl

/-! ## The hex-content check -/

theorem char_le_iff (a b : Char) : a ≤ b ↔ a.toNat ≤ b.toNat := by
  show a.val ≤ b.val ↔ _
  rw [UInt32.le_def]
  rfl

theorem hexClass_iff (c : Char) : hexClass c = true ↔ c ∈ "0123456789abcdef".toList := by
  constructor
  · intro h
    simp only [hexClass, Bool.or_eq_true, Bool.and_eq_true, decide_eq_true_eq, char_le_iff] at h
    have e : c = Char.ofNat c.toNat := (Char.ofNat_toNat c).symm
    have h0 : ('0' : Char).toNat = 48 := rfl
    have h9 : ('9' : Char).toNat = 57 := rfl
    have ha : ('a' : Char).toNat = 97 := rfl
    have hf : ('f' : Char).toNat = 102 := rfl
    rw [h0, h9, ha, hf] at h
    generalize c.toNat = n at e h
    subst e
    rcases h with ⟨h1, h2⟩ | ⟨h1, h2⟩ <;> interval_cases n <;> decide
  · intro h
    simp only [String.toList] at h
    simp only [List.mem_cons, List.mem_singleton] at h
    rcases h with h | h | h | h | h | h | h | h | h | h | h | h | h | h | h | h | h
    all_goals first | (subst h; decide) | simp at h

theorem MatchString_iff (cls : Char → Bool) (min max : Nat) (s : Str) :
    MatchString cls min max s = true ↔
      ∃ pre run post, s = pre ++ run ++ post ∧ min ≤ run.length ∧ run.length ≤ max ∧
        ∀ c ∈ run, cls c = true := by
  unfold MatchString matchRepeatAt
  simp only [List.any_eq_true, decide_eq_true_eq, List.mem_tails]
  constructor
  · rintro ⟨t, ⟨pre, rfl⟩, hlen⟩
    obtain ⟨post, hpost⟩ : List.takeWhile cls (t.take max) <+: t :=
      (List.takeWhile_prefix cls).trans (List.take_prefix max t)
    refine ⟨pre, List.takeWhile cls (t.take max), post, ?_, hlen, ?_, ?_⟩
    · rw [List.append_assoc, hpost]
    · calc (List.takeWhile cls (t.take max)).length
          ≤ (t.take max).length := (List.takeWhile_prefix cls).length_le
        _ ≤ max := by rw [List.length_take]; exact Nat.min_le_left _ _
    · intro c hc
      exact List.mem_takeWhile_imp hc
  · rintro ⟨pre, run, post, rfl, h1, h2, h3⟩
    refine ⟨run ++ post, ⟨pre, by rw [List.append_assoc]⟩, ?_⟩
    have e : List.take max (run ++ post) = run ++ List.take (max - run.length) post := by
      rw [List.take_append_eq_append_take, List.take_of_length_le h2]
    rw [e, List.takeWhile_append_of_pos h3, List.length_append]
    omega

/-! ## The proxy instance: lemmas -/

theorem runGets_inited {P E W : Type} (get : W → (Option P × Option E) × W) (n : Nat)
    (s : HTTPProxy P E) (w : W) (h : s.inited = true) :
    runGets get n s w = (List.replicate n (s.proxy, s.err), s, w) := by
  induction n with
  | zero => rfl
  | succ n ih =>
    simp only [runGets, HTTPProxy.Get, h, if_true, ih, List.replicate_succ]

theorem delCORSHeaders_apply (h : Header) (k : Str) :
    delCORSHeaders h k =
      if k = "Access-Control-Allow-Credentials".toList ∨
          k = "Access-Control-Allow-Origin".toList then none
      else h k := by
  have c1 : CanonicalMIMEHeaderKey "Access-Control-Allow-Credentials".toList =
      "Access-Control-Allow-Credentials".toList := by decide
  have c2 : CanonicalMIMEHeaderKey "Access-Control-Allow-Origin".toList =
      "Access-Control-Allow-Origin".toList := by decide
  simp only [delCORSHeaders, corsHeaders, List.foldl, Header.Del, c1, c2]
  by_cases h2 : k = "Access-Control-Allow-Origin".toList
  · rw [if_pos h2, if_pos (Or.inr h2)]
  · by_cases h1 : k = "Access-Control-Allow-Credentials".toList
    · rw [if_neg h2, if_pos h1, if_pos (Or.inl h1)]
    · rw [if_neg h2, if_neg h1, if_neg (fun e => e.elim h1 h2)]

/-! ## The parser and the pool key: further lemmas -/

theorem Parse_ok_fields {mods : List Str} {url : URL} {src : Source}
    (hok : Parse mods url = .ok src) :
    src.InfoHash = identifier url ∧ src.Token = url.Query.Get "token".toList ∧
    src.Type_ = sourceTypeLoop (identifier url) mods "default".toList ∧
    extractMod mods (normalizedPath url) = .ok (src.Path, src.Mod) := by
  rw [Parse_eq] at hok
  split at hok
  · cases hok
  · split at hok
    · cases hok
    · split at hok
      · cases hok
      · split at hok
        · cases hok
        · rename_i newPath mod hx
          simp only [Except.ok.injEq] at hok
          subst hok
          exact ⟨rfl, rfl, rfl, hx⟩

theorem append_true_ne_append_false (x y : Str) :
    x ++ "true".toList ≠ y ++ "false".toList := by
  intro h
  have h2 := congrArg List.reverse h
  simp [String.toList] at h2

/-! ## The proxy pool: lemmas -/

section PoolLemmas

variable {P E W : Type}

theorem Get_expire (get : Source → Bool → W → (Option P × Option E) × W)
    (s : HTTPProxyPool P E) (now : Nat) (src : Source) (invoke : Bool) (w : W) :
    (HTTPProxyPool.Get get s now src invoke w).2.1.expire = s.expire := rfl

theorem Get_proxiesMade (get : Source → Bool → W → (Option P × Option E) × W)
    (s : HTTPProxyPool P E) (now : Nat) (src : Source) (invoke : Bool) (w : W) :
    (HTTPProxyPool.Get get s now src invoke w).2.1.proxiesMade = s.proxiesMade + 1 := rfl

theorem Get_sm_other (get : Source → Bool → W → (Option P × Option E) × W)
    (s : HTTPProxyPool P E) (now : Nat) (src : Source) (invoke : Bool) (w : W) (k : Str)
    (hk : k ≠ src.GetKey ++ FormatBool invoke) :
    (HTTPProxyPool.Get get s now src invoke w).2.1.sm k = s.sm k := by
  simp only [HTTPProxyPool.Get, SyncMap.update, SyncMap.LoadOrStore, if_neg hk]
  cases s.sm (src.GetKey ++ FormatBool invoke) <;> simp [hk, SyncMap.update]

theorem Get_timers_other (get : Source → Bool → W → (Option P × Option E) × W)
    (s : HTTPProxyPool P E) (now : Nat) (src : Source) (invoke : Bool) (w : W) (k : Str)
    (hk : k ≠ src.GetKey ++ FormatBool invoke) :
    (HTTPProxyPool.Get get s now src invoke w).2.1.timers k = s.timers k := by
  simp only [HTTPProxyPool.Get, SyncMap.update, SyncMap.LoadOrStore]
  cases s.timers (src.GetKey ++ FormatBool invoke) <;> simp [hk, SyncMap.update]

theorem Get_sm_loaded (get : Source → Bool → W → (Option P × Option E) × W)
    (s : HTTPProxyPool P E) (now : Nat) (src : Source) (invoke : Bool) (w : W)
    (e : Instance P E) (he : s.sm (src.GetKey ++ FormatBool invoke) = some e) :
    (HTTPProxyPool.Get get s now src invoke w).1 =
      (HTTPProxy.Get (get e.src e.invoke) e.proxy w).1 ∧
    (HTTPProxyPool.Get get s now src invoke w).2.2 =
      (HTTPProxy.Get (get e.src e.invoke) e.proxy w).2.2 ∧
    (HTTPProxyPool.Get get s now src invoke w).2.1.sm (src.GetKey ++ FormatBool invoke) =
      some { e with proxy := (HTTPProxy.Get (get e.src e.invoke) e.proxy w).2.1 } := by
  refine ⟨?_, ?_, ?_⟩ <;>
    simp [HTTPProxyPool.Get, SyncMap.update, SyncMap.LoadOrStore, he]

theorem Get_sm_stored (get : Source → Bool → W → (Option P × Option E) × W)
    (s : HTTPProxyPool P E) (now : Nat) (src : Source) (invoke : Bool) (w : W)
    (he : s.sm (src.GetKey ++ FormatBool invoke) = none) :
    (HTTPProxyPool.Get get s now src invoke w).1 = (get src invoke w).1 ∧
    (HTTPProxyPool.Get get s now src invoke w).2.2 = (get src invoke w).2 ∧
    (HTTPProxyPool.Get get s now src invoke w).2.1.sm (src.GetKey ++ FormatBool invoke) =
      some { id := s.proxiesMade, src := src, invoke := invoke,
             proxy := { inited := true, proxy := (get src invoke w).1.1,
                        err := (get src invoke w).1.2 } } := by
  refine ⟨?_, ?_, ?_⟩ <;>
    simp [HTTPProxyPool.Get, SyncMap.update, SyncMap.LoadOrStore, he, HTTPProxy.Get,
      NewHTTPProxy]

theorem Get_timers_loaded (get : Source → Bool → W → (Option P × Option E) × W)
    (s : HTTPProxyPool P E) (now : Nat) (src : Source) (invoke : Bool) (w : W)
    (t : Timer) (ht : s.timers (src.GetKey ++ FormatBool invoke) = some t) :
    (HTTPProxyPool.Get get s now src invoke w).2.1.timers (src.GetKey ++ FormatBool invoke) =
      some { t with deadline := now + s.expire } ∧
    (HTTPProxyPool.Get get s now src invoke w).2.1.waiters = s.waiters := by
  simp only [HTTPProxyPool.Get, SyncMap.update, SyncMap.LoadOrStore, ht]
  simp [SyncMap.update]

theorem Get_timers_stored (get : Source → Bool → W → (Option P × Option E) × W)
    (s : HTTPProxyPool P E) (now : Nat) (src : Source) (invoke : Bool) (w : W)
    (ht : s.timers (src.GetKey ++ FormatBool invoke) = none) :
    (HTTPProxyPool.Get get s now src invoke w).2.1.timers (src.GetKey ++ FormatBool invoke) =
      some { id := s.timersMade, deadline := now + s.expire } ∧
    (HTTPProxyPool.Get get s now src invoke w).2.1.waiters =
      (src.GetKey ++ FormatBool invoke, s.timersMade) :: s.waiters := by
  simp only [HTTPProxyPool.Get, SyncMap.update, SyncMap.LoadOrStore, ht]
  simp [SyncMap.update]

theorem Get_waiters_mem (get : Source → Bool → W → (Option P × Option E) × W)
    (s : HTTPProxyPool P E) (now : Nat) (src : Source) (invoke : Bool) (w : W)
    (wt : Str × Nat) (h : wt ∈ s.waiters) :
    wt ∈ (HTTPProxyPool.Get get s now src invoke w).2.1.waiters := by
  cases ht : s.timers (src.GetKey ++ FormatBool invoke) with
  | none => rw [(Get_timers_stored get s now src invoke w ht).2]; exact List.mem_cons_of_mem _ h
  | some t => rw [(Get_timers_loaded get s now src invoke w t ht).2]; exact h

theorem evicts_iff (s : HTTPProxyPool P E) (now : Nat) (k : Str) :
    s.evicts now k = true ↔ ∃ id, (k, id) ∈ s.waiters ∧ s.waiterDue now (k, id) = true := by
  simp only [HTTPProxyPool.evicts, List.any_eq_true, Bool.and_eq_true, beq_iff_eq]
  constructor
  · rintro ⟨⟨k2, id⟩, hm, hk, hd⟩
    simp only at hk
    subst hk
    exact ⟨id, hm, hd⟩
  · rintro ⟨id, hm, hd⟩
    exact ⟨(k, id), hm, rfl, hd⟩

theorem waiterDue_of_timer (s : HTTPProxyPool P E) (now : Nat) (k : Str) (id : Nat)
    (t : Timer) (ht : s.timers k = some t) :
    s.waiterDue now (k, id) = true ↔ t.id = id ∧ t.deadline ≤ now := by
  simp [HTTPProxyPool.waiterDue, ht]

theorem evicts_of_due (s : HTTPProxyPool P E) (now : Nat) (k : Str) (t : Timer)
    (ht : s.timers k = some t) (hw : (k, t.id) ∈ s.waiters) (hd : t.deadline ≤ now) :
    s.evicts now k = true :=
  (evicts_iff s now k).2 ⟨t.id, hw, (waiterDue_of_timer s now k t.id t ht).2 ⟨rfl, hd⟩⟩

theorem not_evicts_of_lt (s : HTTPProxyPool P E) (now : Nat) (k : Str) (t : Timer)
    (ht : s.timers k = some t) (hd : now < t.deadline) :
    s.evicts now k = false := by
  rw [← Bool.not_eq_true, evicts_iff]
  rintro ⟨id, _, h⟩
  have := ((waiterDue_of_timer s now k id t ht).1 h).2
  omega

theorem not_evicts_of_none (s : HTTPProxyPool P E) (now : Nat) (k : Str)
    (ht : s.timers k = none) : s.evicts now k = false := by
  rw [← Bool.not_eq_true, evicts_iff]
  rintro ⟨id, _, h⟩
  simp [HTTPProxyPool.waiterDue, ht] at h

theorem fire_of_evicts (s : HTTPProxyPool P E) (now : Nat) (k : Str)
    (h : s.evicts now k = true) :
    (s.fire now).sm k = none ∧ (s.fire now).timers k = none := by
  simp [HTTPProxyPool.fire, h]

theorem fire_of_not_evicts (s : HTTPProxyPool P E) (now : Nat) (k : Str)
    (h : s.evicts now k = false) :
    (s.fire now).sm k = s.sm k ∧ (s.fire now).timers k = s.timers k := by
  simp [HTTPProxyPool.fire, h]

theorem fire_sm_none (s : HTTPProxyPool P E) (now : Nat) (k : Str) (h : s.sm k = none) :
    (s.fire now).sm k = none := by
  simp only [HTTPProxyPool.fire]
  split <;> simp [h]

theorem fire_timers_none (s : HTTPProxyPool P E) (now : Nat) (k : Str)
    (h : s.timers k = none) : (s.fire now).timers k = none := by
  simp only [HTTPProxyPool.fire]
  split <;> simp [h]

theorem fire_waiters_mem (s : HTTPProxyPool P E) (now : Nat) (wt : Str × Nat)
    (h : wt ∈ s.waiters) (hd : s.waiterDue now wt = false) : wt ∈ (s.fire now).waiters := by
  simp only [HTTPProxyPool.fire, List.mem_filter]
  exact ⟨h, by simp [hd]⟩

theorem PoolInv_new : PoolInv (NewHTTPProxyPool : HTTPProxyPool P E) := by
  refine ⟨?_, ?_, rfl⟩
  · intro k t h; simp [NewHTTPProxyPool] at h
  · intro k e h; simp [NewHTTPProxyPool] at h

theorem PoolInv_fire (s : HTTPProxyPool P E) (now : Nat) (h : PoolInv s) :
    PoolInv (s.fire now) := by
  obtain ⟨h1, h2, h3⟩ := h
  refine ⟨?_, ?_, h3⟩
  · intro k t ht
    cases hev : s.evicts now k with
    | true => rw [(fire_of_evicts s now k hev).2] at ht; cases ht
    | false =>
      rw [(fire_of_not_evicts s now k hev).2] at ht
      have hw := h1 k t ht
      apply fire_waiters_mem s now _ hw
      rw [← Bool.not_eq_true]
      intro hd
      have : s.evicts now k = true := (evicts_iff s now k).2 ⟨t.id, hw, hd⟩
      rw [hev] at this
      cases this
  · intro k e he
    cases hev : s.evicts now k with
    | true => rw [(fire_of_evicts s now k hev).1] at he; cases he
    | false =>
      rw [(fire_of_not_evicts s now k hev).1] at he
      exact h2 k e he

theorem PoolInv_Get (get : Source → Bool → W → (Option P × Option E) × W)
    (s : HTTPProxyPool P E) (now : Nat) (src : Source) (invoke : Bool) (w : W)
    (h : PoolInv s) : PoolInv (HTTPProxyPool.Get get s now src invoke w).2.1 := by
  obtain ⟨h1, h2, h3⟩ := h
  refine ⟨?_, ?_, h3⟩
  · intro k t ht
    by_cases hk : k = src.GetKey ++ FormatBool invoke
    · subst hk
      cases hs : s.timers (src.GetKey ++ FormatBool invoke) with
      | none =>
        obtain ⟨e1, e2⟩ := Get_timers_stored get s now src invoke w hs
        rw [e1] at ht
        cases ht
        rw [e2]
        exact List.mem_cons_self _ _
      | some t0 =>
        obtain ⟨e1, e2⟩ := Get_timers_loaded get s now src invoke w t0 hs
        rw [e1] at ht
        cases ht
        rw [e2]
        exact h1 _ t0 hs
    · rw [Get_timers_other get s now src invoke w k hk] at ht
      exact Get_waiters_mem get s now src invoke w _ (h1 k t ht)
  · intro k e he
    rw [Get_proxiesMade]
    by_cases hk : k = src.GetKey ++ FormatBool invoke
    · subst hk
      cases hs : s.sm (src.GetKey ++ FormatBool invoke) with
      | none =>
        rw [(Get_sm_stored get s now src invoke w hs).2.2] at he
        cases he
        exact Nat.lt_succ_self _
      | some e0 =>
        rw [(Get_sm_loaded get s now src invoke w e0 hs).2.2] at he
        cases he
        exact Nat.lt_succ_of_lt (h2 _ e0 hs)
    · rw [Get_sm_other get s now src invoke w k hk] at he
      exact Nat.lt_succ_of_lt (h2 k e he)

theorem PoolInv_GetAt (get : Source → Bool → W → (Option P × Option E) × W)
    (s : HTTPProxyPool P E) (c : PoolCall) (w : W) (h : PoolInv s) :
    PoolInv (HTTPProxyPool.GetAt get s c w).2.1 :=
  PoolInv_Get get _ _ _ _ _ (PoolInv_fire s c.now h)

theorem PoolInv_runPool (get : Source → Bool → W → (Option P × Option E) × W)
    (cs : List PoolCall) :
    ∀ (s : HTTPProxyPool P E) (w : W), PoolInv s → PoolInv (runPool get cs s w).2.1 := by
  induction cs with
  | nil => intro s w h; exact h
  | cons c cs ih =>
    intro s w h
    exact ih _ _ (PoolInv_GetAt get s c w h)

theorem HTTPProxy_Get_inited {P E W : Type} (g : W → (Option P × Option E) × W)
    (s : HTTPProxy P E) (w : W) (h : s.inited = true) :
    HTTPProxy.Get g s w = ((s.proxy, s.err), s, w) := by
  simp [HTTPProxy.Get, h]

theorem HTTPProxy_Get_result {P E W : Type} (g : W → (Option P × Option E) × W)
    (s : HTTPProxy P E) (w : W) :
    (HTTPProxy.Get g s w).2.1.inited = true ∧
    (HTTPProxy.Get g s w).1 = ((HTTPProxy.Get g s w).2.1.proxy, (HTTPProxy.Get g s w).2.1.err) := by
  cases h : s.inited <;> simp [HTTPProxy.Get, h]

theorem EvictionPending_fire {P E : Type} (k : Str) (d : Nat) (s : HTTPProxyPool P E)
    (now : Nat) (h : EvictionPending k d s) : EvictionPending k d (s.fire now) := by
  rcases h with ⟨h1, h2⟩ | ⟨t, h1, h2, h3⟩
  · exact Or.inl ⟨fire_sm_none s now k h1, fire_timers_none s now k h2⟩
  · by_cases hd : d ≤ now
    · exact Or.inl (fire_of_evicts s now k (evicts_of_due s now k t h1 h3 (by omega)))
    · have hlt : now < t.deadline := by omega
      refine Or.inr ⟨t, ?_, h2, ?_⟩
      · rw [(fire_of_not_evicts s now k (not_evicts_of_lt s now k t h1 hlt)).2]; exact h1
      · apply fire_waiters_mem s now _ h3
        rw [← Bool.not_eq_true, waiterDue_of_timer s now k t.id t h1]
        rintro ⟨_, h⟩
        omega

theorem EvictionPending_Get_other {P E W : Type}
    (get : Source → Bool → W → (Option P × Option E) × W) (k : Str) (d : Nat)
    (s : HTTPProxyPool P E) (now : Nat) (src : Source) (invoke : Bool) (w : W)
    (hk : k ≠ src.GetKey ++ FormatBool invoke) (h : EvictionPending k d s) :
    EvictionPending k d (HTTPProxyPool.Get get s now src invoke w).2.1 := by
  rcases h with ⟨h1, h2⟩ | ⟨t, h1, h2, h3⟩
  · left
    rw [Get_sm_other get s now src invoke w k hk, Get_timers_other get s now src invoke w k hk]
    exact ⟨h1, h2⟩
  · right
    refine ⟨t, ?_, h2, Get_waiters_mem get s now src invoke w _ h3⟩
    rw [Get_timers_other get s now src invoke w k hk]
    exact h1

theorem EvictionPending_runPool {P E W : Type}
    (get : Source → Bool → W → (Option P × Option E) × W) (k : Str) (d : Nat)
    (others : List PoolCall) :
    ∀ (s : HTTPProxyPool P E) (w : W), (∀ o ∈ others, o.key ≠ k) → EvictionPending k d s →
      EvictionPending k d (runPool get others s w).2.1 := by
  induction others with
  | nil => intro s w _ h; exact h
  | cons o os ih =>
    intro s w ho h
    apply ih _ _ (fun x hx => ho x (List.mem_cons_of_mem _ hx))
    have hk : k ≠ o.src.GetKey ++ FormatBool o.invoke :=
      fun e => ho o (List.mem_cons_self _ _) e.symm
    exact EvictionPending_Get_other get k d _ o.now o.src o.invoke w hk
      (EvictionPending_fire k d s o.now h)

theorem EvictionPending_Get {P E W : Type}
    (get : Source → Bool → W → (Option P × Option E) × W)
    (s : HTTPProxyPool P E) (now : Nat) (src : Source) (invoke : Bool) (w : W)
    (h : PoolInv s) :
    EvictionPending (src.GetKey ++ FormatBool invoke) (now + s.expire)
      (HTTPProxyPool.Get get s now src invoke w).2.1 := by
  right
  cases hs : s.timers (src.GetKey ++ FormatBool invoke) with
  | none =>
    obtain ⟨e1, e2⟩ := Get_timers_stored get s now src invoke w hs
    exact ⟨_, e1, rfl, by rw [e2]; exact List.mem_cons_self _ _⟩
  | some t0 =>
    obtain ⟨e1, e2⟩ := Get_timers_loaded get s now src invoke w t0 hs
    exact ⟨_, e1, rfl, by rw [e2]; exact h.1 _ t0 hs⟩

theorem EvictionPending_gone {P E : Type} (k : Str) (d : Nat) (s : HTTPProxyPool P E)
    (now : Nat) (h : EvictionPending k d s) (hd : d ≤ now) :
    (s.fire now).sm k = none ∧ (s.fire now).timers k = none := by
  rcases h with ⟨h1, h2⟩ | ⟨t, h1, h2, h3⟩
  · exact ⟨fire_sm_none s now k h1, fire_timers_none s now k h2⟩
  · exact fire_of_evicts s now k (evicts_of_due s now k t h1 h3 (by omega))

theorem runPool_append {P E W : Type}
    (get : Source → Bool → W → (Option P × Option E) × W) (as bs : List PoolCall) :
    ∀ (s : HTTPProxyPool P E) (w : W),
      (runPool get (as ++ bs) s w).2 =
        (runPool get bs (runPool get as s w).2.1 (runPool get as s w).2.2).2 := by
  induction as with
  | nil => intro s w; rfl
  | cons a as ih => intro s w; exact ih _ _

theorem runPool_expire {P E W : Type}
    (get : Source → Bool → W → (Option P × Option E) × W) (cs : List PoolCall) :
    ∀ (s : HTTPProxyPool P E) (w : W), (runPool get cs s w).2.1.expire = s.expire := by
  induction cs with
  | nil => intro s w; rfl
  | cons c cs ih => intro s w; exact ih _ _

theorem alive_runPool {P E W : Type}
    (get : Source → Bool → W → (Option P × Option E) × W) (k : Str) (cs : List PoolCall) :
    ∀ (s : HTTPProxyPool P E) (w : W) (prev : Nat) (e : Instance P E) (t : Timer),
      (∀ c ∈ cs, c.key = k) → withinTTL s.expire prev cs = true →
      s.sm k = some e → e.proxy.inited = true →
      s.timers k = some t → t.deadline = prev + s.expire →
      (runPool get cs s w).1 = List.replicate cs.length (e.proxy.proxy, e.proxy.err) ∧
      (runPool get cs s w).2.2 = w ∧
      (runPool get cs s w).2.1.sm k = some e := by
  induction cs with
  | nil =>
    intro s w prev e t _ _ hs _ _ _
    exact ⟨rfl, rfl, hs⟩
  | cons c cs ih =>
    intro s w prev e t hk hw hs hi ht hd
    simp only [withinTTL, Bool.and_eq_true, decide_eq_true_eq] at hw
    obtain ⟨hlt, hw⟩ := hw
    have hck : c.src.GetKey ++ FormatBool c.invoke = k := hk c (List.mem_cons_self _ _)
    have hne := not_evicts_of_lt s c.now k t ht (by omega)
    obtain ⟨f1, f2⟩ := fire_of_not_evicts s c.now k hne
    have hs2 : (s.fire c.now).sm (c.src.GetKey ++ FormatBool c.invoke) = some e := by
      rw [hck, f1]; exact hs
    have ht2 : (s.fire c.now).timers (c.src.GetKey ++ FormatBool c.invoke) = some t := by
      rw [hck, f2]; exact ht
    obtain ⟨g1, g2, g3⟩ := Get_sm_loaded get (s.fire c.now) c.now c.src c.invoke w e hs2
    obtain ⟨g4, _⟩ := Get_timers_loaded get (s.fire c.now) c.now c.src c.invoke w t ht2
    rw [HTTPProxy_Get_inited _ _ _ hi] at g1 g2 g3
    rw [hck] at g3 g4
    have hstep := ih (HTTPProxyPool.GetAt get s c w).2.1 (HTTPProxyPool.GetAt get s c w).2.2
      c.now e { t with deadline := c.now + s.expire }
      (fun x hx => hk x (List.mem_cons_of_mem _ hx)) hw g3 hi g4 rfl
    obtain ⟨r1, r2, r3⟩ := hstep
    refine ⟨?_, ?_, ?_⟩
    · show (HTTPProxyPool.GetAt get s c w).1 :: _ = _
      rw [r1, List.length_cons, List.replicate_succ]
      congr 1
    · show (runPool get cs (HTTPProxyPool.GetAt get s c w).2.1
        (HTTPProxyPool.GetAt get s c w).2.2).2.2 = w
      rw [r2]; exact g2
    · exact r3

end PoolLemmas

/-! ## Claims -/

/-- C1: for an accepted request whose normalized path is `pre ++ "~" ++ suf` with no
`~` in `suf` (so this is its last `~`) and whose mod type, the text of `suf` before
its first `/` cut again before its first `:`, is a configured mod name, `Parse`
returns the identifier as `InfoHash`, `Path = pre`, and the mod with that type,
`Extra` the text after the first `:` of the mod specifier (empty without `:`) and
`Path = Clean("/" + text after the first "/" of suf)`, which is `/` when `suf` has
no `/`. -/
theorem Parse_recognized_mod (mods : List Str) (url : URL) (src : Source) (pre suf : Str)
    (hok : Parse mods url = .ok src)
    (hP : normalizedPath url = pre ++ '~' :: suf) (hlast : '~' ∉ suf)
    (hmod : beforeFirst ':' (beforeFirst '/' suf) ∈ mods) :
    src.InfoHash = identifier url ∧ src.Path = pre ∧
    src.Mod = some { Type_ := beforeFirst ':' (beforeFirst '/' suf),
                     Extra := afterFirst ':' (beforeFirst '/' suf),
                     Path := Clean ('/' :: afterFirst '/' suf) } ∧
    (':' ∉ beforeFirst '/' suf → afterFirst ':' (beforeFirst '/' suf) = []) ∧
    ('/' ∉ suf → Clean ('/' :: afterFirst '/' suf) = ['/']) := by
  obtain ⟨h1, h2, h3⟩ := Parse_ok_cut hok hP hlast
  rw [if_pos hmod] at h3
  refine ⟨h1, h2, h3, afterFirst_of_not_mem, ?_⟩
  intro h
  rw [afterFirst_of_not_mem h]
  rfl

set_option maxRecDepth 100000 in
/-- C1, witness: `/0123456789abcdef/images/pic.png~resize:200/crop` with mods = [resize]
is accepted, with `InfoHash = 0123456789abcdef`, `Path = /images/pic.png` and the mod
of type `resize`, path `/crop`, extra `200`. -/
theorem Parse_recognized_mod_witness :
    ∃ src, Parse ["resize".toList]
        ⟨"/0123456789abcdef/images/pic.png~resize:200/crop".toList, fun _ => none⟩ = .ok src ∧
      src.InfoHash = "0123456789abcdef".toList ∧ src.Path = "/images/pic.png".toList ∧
      src.Mod = some { Type_ := "resize".toList, Path := "/crop".toList,
                       Extra := "200".toList } :=
  have h := Parse_recognized_mod ["resize".toList]
    ⟨"/0123456789abcdef/images/pic.png~resize:200/crop".toList, fun _ => none⟩
    { Type_ := "default".toList, InfoHash := "0123456789abcdef".toList,
      Path := "/images/pic.png".toList, Token := [],
      Mod := some { Type_ := "resize".toList, Path := "/crop".toList, Extra := "200".toList } }
    "/images/pic.png".toList "resize:200/crop".toList rfl rfl (by decide) (by decide)
  ⟨_, rfl, h.1.trans rfl, h.2.1, h.2.2.1.trans rfl⟩

/-- C2: for an accepted request whose normalized path is `pre ++ "~" ++ suf` with no
`~` in `suf` and whose mod type (the text of `suf` before its first `/`, cut again
before its first `:`) is not a configured mod name, `Parse` succeeds with no `Mod`
and with `Path = pre`, the normalized path cut just before its last `~`. -/
theorem Parse_unrecognized_mod (mods : List Str) (url : URL) (src : Source) (pre suf : Str)
    (hok : Parse mods url = .ok src)
    (hP : normalizedPath url = pre ++ '~' :: suf) (hlast : '~' ∉ suf)
    (hmod : beforeFirst ':' (beforeFirst '/' suf) ∉ mods) :
    src.Mod = none ∧ src.Path = pre := by
  obtain ⟨_, h2, h3⟩ := Parse_ok_cut hok hP hlast
  rw [if_neg hmod] at h3
  exact ⟨h3, h2⟩

set_option maxRecDepth 100000 in
/-- C2, witness: `/abcde/x~foo/bar` with `foo` not configured is accepted and gives
`Path = /x` and no `Mod`. -/
theorem Parse_unrecognized_mod_witness :
    ∃ src, Parse [] ⟨"/abcde/x~foo/bar".toList, fun _ => none⟩ = .ok src ∧
      src.Mod = none ∧ src.Path = "/x".toList :=
  ⟨_, rfl, Parse_unrecognized_mod [] ⟨"/abcde/x~foo/bar".toList, fun _ => none⟩
    { Type_ := "default".toList, InfoHash := "abcde".toList, Path := "/x".toList,
      Token := [], Mod := none }
    "/x".toList "foo/bar".toList rfl rfl (by decide) (by decide)⟩

/-- C3: `Parse` returns an error and no `Source` when the URL path is empty
(`Empty url`), when the identifier segment is empty (`Empty hash`), and when the
identifier is not a configured mod name and fails the hex-content check
(`Wrong hash=<identifier>`); the two request errors are different from every hash
error. -/
theorem Parse_rejects (mods : List Str) (url : URL) :
    (url.Path = [] → Parse mods url = .error "Empty url".toList) ∧
    (url.Path ≠ [] → identifier url = [] → Parse mods url = .error "Empty hash".toList) ∧
    (identifier url ≠ [] → identifier url ∉ mods → checkHash (identifier url) = false →
      Parse mods url = .error ("Wrong hash=".toList ++ identifier url)) ∧
    (∀ h : Str, "Empty url".toList ≠ "Wrong hash=".toList ++ h ∧
      "Empty hash".toList ≠ "Wrong hash=".toList ++ h) := by
  refine ⟨?_, ?_, ?_, ?_⟩
  · intro h
    rw [Parse_eq, if_pos h]
  · intro h1 h2
    rw [Parse_eq, if_neg h1, if_pos h2]
  · intro h1 h2 h3
    have hp : url.Path ≠ [] := by
      intro e
      apply h1
      simp [identifier, e, beforeFirst]
    rw [Parse_eq, if_neg hp, if_neg h1, sourceTypeLoop_of_not_mem _ h2, if_pos ⟨rfl, h3⟩]
  · intro h
    constructor <;> intro e <;> simp at e

/-- C3, witness: the empty path is rejected with `Empty url`, the path `/` with
`Empty hash`, and `/xyz` with no configured mods with `Wrong hash=xyz`. -/
theorem Parse_rejects_witness :
    Parse [] ⟨[], fun _ => none⟩ = .error "Empty url".toList ∧
    Parse [] ⟨"/".toList, fun _ => none⟩ = .error "Empty hash".toList ∧
    Parse [] ⟨"/xyz".toList, fun _ => none⟩ = .error "Wrong hash=xyz".toList ∧
    "Empty url".toList ≠ "Wrong hash=xyz".toList :=
  ⟨(Parse_rejects [] ⟨[], fun _ => none⟩).1 rfl,
   (Parse_rejects [] ⟨"/".toList, fun _ => none⟩).2.1 (by decide) rfl,
   (Parse_rejects [] ⟨"/xyz".toList, fun _ => none⟩).2.2.1 (by decide) (by decide) rfl,
   ((Parse_rejects [] ⟨[], fun _ => none⟩).2.2.2 "xyz".toList).1⟩

/-- C4, the failing input: with the mod name `default` configured, the request
`/default/x`, whose identifier is exactly that mod name, is rejected by the
hex-content check. -/
theorem Parse_mod_named_default :
    "default".toList ∈ ["default".toList] ∧
    identifier ⟨"/default/x".toList, fun _ => none⟩ = "default".toList ∧
    Parse ["default".toList] ⟨"/default/x".toList, fun _ => none⟩ =
      .error "Wrong hash=default".toList :=
  ⟨by decide, by decide, rfl⟩

/-- C5: the key is `InfoHash ++ Type` without a mod and
`InfoHash ++ Type ++ Path ++ Mod.Type ++ Mod.Extra` with one; two sources that
agree on `Type`, `InfoHash`, `Path` and `Mod` have the same key whatever their
tokens are. -/
theorem GetKey_eq (ty ih path tok tok2 : Str) (m : Mod) (mod : Option Mod) :
    Source.GetKey { Type_ := ty, InfoHash := ih, Path := path, Token := tok, Mod := none } =
      ih ++ ty ∧
    Source.GetKey { Type_ := ty, InfoHash := ih, Path := path, Token := tok, Mod := some m } =
      ih ++ ty ++ path ++ m.Type_ ++ m.Extra ∧
    Source.GetKey { Type_ := ty, InfoHash := ih, Path := path, Token := tok, Mod := mod } =
      Source.GetKey { Type_ := ty, InfoHash := ih, Path := path, Token := tok2, Mod := mod } := by
  refine ⟨rfl, rfl, ?_⟩
  cases mod <;> rfl

/-- C6: `checkHash(h)` is true exactly when `h` contains a contiguous run of 5 to 40
characters of `0-9` and `a-f` anywhere in it, with arbitrary text before and after
the run; `abc12` passes and `xyz` fails. -/
theorem checkHash_iff :
    (∀ h : Str, checkHash h = true ↔
      ∃ pre run post, h = pre ++ run ++ post ∧ 5 ≤ run.length ∧ run.length ≤ 40 ∧
        ∀ c ∈ run, c ∈ "0123456789abcdef".toList) ∧
    checkHash "abc12".toList = true ∧ checkHash "xyz".toList = false := by
  refine ⟨?_, by decide, by decide⟩
  intro h
  unfold checkHash
  rw [MatchString_iff hexClass 5 40 h]
  simp only [hexClass_iff]

/-- C7: for every construction oracle `get`, every state `w` of the outside and
every number `n + 1` of `Get` calls on a new instance, all calls return the pair
`(proxy, err)` the oracle gave to the first call (an error included), the instance
ends initialised holding that pair, the outside is as after one run of the oracle,
and the invocation counter stands at exactly 1. -/
theorem Get_memoises {P E W : Type} (get : W → (Option P × Option E) × W) (w : W) (n : Nat) :
    (runGets get (n + 1) NewHTTPProxy w).1 = List.replicate (n + 1) (get w).1 ∧
    (runGets get (n + 1) NewHTTPProxy w).2.1 =
      { inited := true, proxy := (get w).1.1, err := (get w).1.2 } ∧
    (runGets get (n + 1) NewHTTPProxy w).2.2 = (get w).2 ∧
    (runGets (counted get) (n + 1) NewHTTPProxy (w, 0)).1 = List.replicate (n + 1) (get w).1 ∧
    (runGets (counted get) (n + 1) NewHTTPProxy (w, 0)).2.2 = ((get w).2, 1) := by
  have key : ∀ {V : Type} (g : V → (Option P × Option E) × V) (v : V),
      runGets g (n + 1) NewHTTPProxy v =
        (List.replicate (n + 1) (g v).1,
          { inited := true, proxy := (g v).1.1, err := (g v).1.2 }, (g v).2) := by
    intro V g v
    simp only [runGets, HTTPProxy.Get, NewHTTPProxy, Bool.false_eq_true, if_false]
    rw [runGets_inited g n _ _ rfl]
    rfl
  rw [key get w, key (counted get) (w, 0)]
  exact ⟨rfl, rfl, rfl, rfl, rfl⟩

/-- C8, counterexample: `/abcde/a/~foo` is accepted and gives `Path = /a/`, which
`Clean` changes to `/a`. -/
theorem Parse_path_not_normalized :
    Parse [] ⟨"/abcde/a/~foo".toList, fun _ => none⟩ =
      .ok { Type_ := "default".toList, InfoHash := "abcde".toList, Path := "/a/".toList,
            Token := [], Mod := none } ∧
    Clean "/a/".toList = "/a".toList ∧ Clean "/a/".toList ≠ "/a/".toList :=
  ⟨rfl, rfl, by decide⟩

/-- C8, amended: for an accepted request the returned `Path` is a fixed point of
`Clean` when the normalized path has no `~` (it is then the normalized path itself);
in general, with a `~` suffix cut off or not, it is a fixed point of `Clean` exactly
when it is `/` or ends in none of `/`, `/.` and `/..`. -/
theorem Parse_path_normalized (mods : List Str) (url : URL) (src : Source)
    (hok : Parse mods url = .ok src) :
    ('~' ∉ normalizedPath url →
      src.Path = normalizedPath url ∧ Clean src.Path = src.Path) ∧
    (Clean src.Path = src.Path ↔
      (src.Path = ['/'] ∨ (¬ ['/'] <:+ src.Path ∧ ¬ ['/', '.'] <:+ src.Path ∧
        ¬ ['/', '.', '.'] <:+ src.Path))) := by
  constructor
  · intro ht
    rw [(Parse_ok_path hok).1 ht]
    exact ⟨rfl, Clean_idem_rooted _⟩
  · obtain ⟨t, rest, segs, hp, hg, hr⟩ := Parse_ok_path_rooted hok
    rw [hp]
    exact Clean_prefix_iff segs hg t rest hr

set_option maxRecDepth 100000 in
/-- C8, witness: `/abc12/videos/../ep1.mp4~x/y` is accepted with `Path = /ep1.mp4`,
which ends in none of `/`, `/.`, `/..` and is a fixed point of `Clean`. -/
theorem Parse_path_normalized_witness :
    ∃ src, Parse [] ⟨"/abc12/videos/../ep1.mp4~x/y".toList, fun _ => none⟩ = .ok src ∧
      src.Path = "/ep1.mp4".toList ∧ Clean src.Path = src.Path :=
  ⟨_, rfl, rfl,
    (Parse_path_normalized [] ⟨"/abc12/videos/../ep1.mp4~x/y".toList, fun _ => none⟩
      { Type_ := "default".toList, InfoHash := "abc12".toList,
        Path := "/ep1.mp4".toList, Token := [], Mod := none } rfl).2.2
      (Or.inr ⟨by decide, by decide, by decide⟩)⟩

/-- C9: after `modifyResponse` (and after `delCORSHeaders`) the headers are the
input headers without the keys `Access-Control-Allow-Credentials` and
`Access-Control-Allow-Origin`: both are absent, every other key keeps its values,
no other field of the response changes, and the returned error is nil. -/
theorem modifyResponse_strips_cors {Req : Type} (r : Response Req) :
    (modifyResponse r).2 = none ∧
    (modifyResponse r).1 = { r with Header := delCORSHeaders r.Header } ∧
    delCORSHeaders r.Header "Access-Control-Allow-Credentials".toList = none ∧
    delCORSHeaders r.Header "Access-Control-Allow-Origin".toList = none ∧
    (∀ k : Str, k ≠ "Access-Control-Allow-Credentials".toList →
      k ≠ "Access-Control-Allow-Origin".toList → delCORSHeaders r.Header k = r.Header k) := by
  refine ⟨rfl, rfl, ?_, ?_, ?_⟩
  · rw [delCORSHeaders_apply, if_pos (Or.inl rfl)]
  · rw [delCORSHeaders_apply, if_pos (Or.inr rfl)]
  · intro k h1 h2
    rw [delCORSHeaders_apply, if_neg (fun e => e.elim h1 h2)]

/-- C10: for all oracles, one call of `HTTPProxy.dial` makes at most two dial
attempts and at most one refresh.  If the first dial, of the given address with the
10 second timeout, succeeds, its connection is returned and nothing else is called.
If it fails, refresh is called once: when refresh fails its error is returned and no
second dial is made, when it succeeds exactly one more dial is made, to the
`IP:HTTP-port` of the refreshed location, and its outcome is returned as it is. -/
theorem dial_attempts {W C E : Type} (net : Net W C E) (w : W) (network addr : Str) :
    ((HTTPProxy.dial net w network addr).2.2.countP NetCall.isDial ≤ 2 ∧
      (HTTPProxy.dial net w network addr).2.2.count NetCall.refresh ≤ 1) ∧
    (∀ conn w1, net.dial w 10 network addr = (.ok conn, w1) →
      HTTPProxy.dial net w network addr = (.ok conn, w1, [.dial network addr 10])) ∧
    (∀ e w1 e2 w2, net.dial w 10 network addr = (.error e, w1) →
      net.refresh w1 = (.error e2, w2) →
      HTTPProxy.dial net w network addr =
        (.error e2, w2, [.dial network addr 10, .refresh])) ∧
    (∀ e w1 loc w2, net.dial w 10 network addr = (.error e, w1) →
      net.refresh w1 = (.ok loc, w2) →
      HTTPProxy.dial net w network addr =
        ((net.dial w2 10 network (loc.IP ++ ':' :: (toString loc.HTTP).toList)).1,
         (net.dial w2 10 network (loc.IP ++ ':' :: (toString loc.HTTP).toList)).2,
         [.dial network addr 10, .refresh,
          .dial network (loc.IP ++ ':' :: (toString loc.HTTP).toList) 10])) := by
  have hcase1 : ∀ conn w1, net.dial w 10 network addr = (.ok conn, w1) →
      HTTPProxy.dial net w network addr = (.ok conn, w1, [.dial network addr 10]) := by
    intro conn w1 h
    simp only [HTTPProxy.dial, HTTP_PROXY_DIAL_TIMEOUT, h]
  have hcase2 : ∀ e w1 e2 w2, net.dial w 10 network addr = (.error e, w1) →
      net.refresh w1 = (.error e2, w2) →
      HTTPProxy.dial net w network addr =
        (.error e2, w2, [.dial network addr 10, .refresh]) := by
    intro e w1 e2 w2 h1 h2
    simp only [HTTPProxy.dial, HTTP_PROXY_DIAL_TIMEOUT, h1, h2]
  have hcase3 : ∀ e w1 loc w2, net.dial w 10 network addr = (.error e, w1) →
      net.refresh w1 = (.ok loc, w2) →
      HTTPProxy.dial net w network addr =
        ((net.dial w2 10 network (loc.IP ++ ':' :: (toString loc.HTTP).toList)).1,
         (net.dial w2 10 network (loc.IP ++ ':' :: (toString loc.HTTP).toList)).2,
         [.dial network addr 10, .refresh,
          .dial network (loc.IP ++ ':' :: (toString loc.HTTP).toList) 10]) := by
    intro e w1 loc w2 h1 h2
    simp only [HTTPProxy.dial, HTTP_PROXY_DIAL_TIMEOUT, h1, h2, locationAddr]
    rcases h3 : net.dial w2 10 network (loc.IP ++ ':' :: (toString loc.HTTP).toList)
      with ⟨r3 | r3, w3⟩ <;> rfl
  refine ⟨?_, hcase1, hcase2, hcase3⟩
  rcases h1 : net.dial w 10 network addr with ⟨e | conn, w1⟩
  · rcases h2 : net.refresh w1 with ⟨e2 | loc, w2⟩
    · rw [hcase2 e w1 e2 w2 h1 h2]
      exact ⟨by simp [NetCall.isDial], by simp [List.count_cons]⟩
    · rw [hcase3 e w1 loc w2 h1 h2]
      exact ⟨by simp [NetCall.isDial], by simp [List.count_cons]⟩
  · rw [hcase1 conn w1 h1]
    exact ⟨by simp [NetCall.isDial], by simp [List.count_cons]⟩

/-- C10, witness: with a dialer that only reaches `10.0.0.2:8080` and a refresh that
gives that location, dialing `10.0.0.1:80` ends with the connection of the second
dial after the calls dial, refresh, dial. -/
theorem dial_attempts_witness :
    HTTPProxy.dial
        ({ dial := fun n _ _ a =>
             (if a = "10.0.0.2:8080".toList then .ok a else .error "refused".toList, n + 1),
           refresh := fun n => (.ok ⟨"10.0.0.2".toList, 8080, false⟩, n + 1) } :
          Net Nat Str Str)
        0 "tcp".toList "10.0.0.1:80".toList =
      (.ok "10.0.0.2:8080".toList, 3,
        [.dial "tcp".toList "10.0.0.1:80".toList 10, .refresh,
         .dial "tcp".toList "10.0.0.2:8080".toList 10]) :=
  (dial_attempts
      ({ dial := fun n _ _ a =>
           (if a = "10.0.0.2:8080".toList then .ok a else .error "refused".toList, n + 1),
         refresh := fun n => (.ok ⟨"10.0.0.2".toList, 8080, false⟩, n + 1) } :
        Net Nat Str Str)
      0 "tcp".toList "10.0.0.1:80".toList).2.2.2 "refused".toList 1
    ⟨"10.0.0.2".toList, 8080, false⟩ 2 rfl rfl

/-- C11: for every request, `stubTransport.RoundTrip` returns no error and a response
with status code 503, status text `503 Service Unavailable`, an empty body, content
length 0, an empty header map and the request itself in `Request`; and
`HTTPProxy.get`, when the location is resolved, returns a proxy whose transport is
the stub exactly when the location has `Unavailable = true` (when the location
cannot be resolved it returns an error and no proxy). -/
theorem stub_transport_unavailable {W Req : Type} (req : Req)
    (getLocation : W → Except Str Location × W) (w : W) :
    ((stubTransport.RoundTrip req).2 = none ∧
      (stubTransport.RoundTrip req).1.StatusCode = 503 ∧
      (stubTransport.RoundTrip req).1.Status = "503 Service Unavailable".toList ∧
      (stubTransport.RoundTrip req).1.Body = [] ∧
      (stubTransport.RoundTrip req).1.ContentLength = 0 ∧
      (∀ k, (stubTransport.RoundTrip req).1.Header k = none) ∧
      (stubTransport.RoundTrip req).1.Request = some req) ∧
    (∀ loc w1, getLocation w = (.ok loc, w1) →
      ∃ p : ReverseProxy Req,
        HTTPProxy.get getLocation w = ((some p, none), w1) ∧
        (p.Transport = .stubTransport ↔ loc.Unavailable = true) ∧
        (loc.Unavailable = false → p.Transport = .httpTransport 100)) ∧
    (∀ err w1, getLocation w = (.error err, w1) →
      ∃ msg, (HTTPProxy.get getLocation w :
        (Option (ReverseProxy Req) × Option Str) × W) = ((none, some msg), w1)) := by
  refine ⟨⟨rfl, rfl, rfl, rfl, rfl, fun _ => rfl, rfl⟩, ?_, ?_⟩
  · intro loc w1 h
    refine ⟨{ Scheme := "http".toList, Host := locationAddr loc,
              Transport := if loc.Unavailable then .stubTransport
                else .httpTransport MAX_IDLE_CONNECTIONS,
              ModifyResponse := modifyResponse }, by simp only [HTTPProxy.get, h], ?_, ?_⟩
    · cases hu : loc.Unavailable <;> simp
    · intro hu
      simp [hu, MAX_IDLE_CONNECTIONS]
  · intro err w1 h
    exact ⟨"Failed to get location".toList ++ ": ".toList ++ err,
      by simp only [HTTPProxy.get, h]⟩

/-- C11, witness: a resolver that gives an unavailable location makes `get` return a
proxy with the stub transport, one that gives an available location a proxy with
the dialing transport. -/
theorem stub_transport_unavailable_witness :
    (∃ p : ReverseProxy Unit,
      HTTPProxy.get (fun n : Nat => (.ok ⟨"10.0.0.1".toList, 80, true⟩, n + 1)) 0 =
        ((some p, none), 1) ∧
      (p.Transport = .stubTransport ↔ true = true)) ∧
    (∃ p : ReverseProxy Unit,
      HTTPProxy.get (fun n : Nat => (.ok ⟨"10.0.0.1".toList, 80, false⟩, n + 1)) 0 =
        ((some p, none), 1) ∧
      p.Transport = .httpTransport 100) :=
  ⟨(fun ⟨p, h1, h2, _⟩ => ⟨p, h1, h2⟩)
    ((stub_transport_unavailable ()
      (fun n : Nat => (.ok ⟨"10.0.0.1".toList, 80, true⟩, n + 1)) 0).2.1
      ⟨"10.0.0.1".toList, 80, true⟩ 1 rfl),
   (fun ⟨p, h1, _, h3⟩ => ⟨p, h1, h3 rfl⟩)
    ((stub_transport_unavailable ()
      (fun n : Nat => (.ok ⟨"10.0.0.1".toList, 80, false⟩, n + 1)) 0).2.1
      ⟨"10.0.0.1".toList, 80, false⟩ 1 rfl)⟩

/-- C12: after any history of calls on a new pool, a `Get` for a key at the time `t`
that is followed by calls for other keys only leaves the pool such that, when the
timers due at any time `T ≥ t + TTL` have fired, the key has no instance entry and no
timer entry; and the next `Get` for the key, at a time `≥ t + TTL`, runs the
construction again: it returns what the oracle gives, as `Get` on a non-initialised
`NewHTTPProxy` does, and stores under the key an instance with a new allocation
number, different from that of every instance the pool held. -/
theorem pool_evicts_after_ttl {P E W : Type}
    (get : Source → Bool → W → (Option P × Option E) × W)
    (history : List PoolCall) (c : PoolCall) (others : List PoolCall) (c2 : PoolCall)
    (w0 : W) (T : Nat)
    (hothers : ∀ o ∈ others, o.key ≠ c.key)
    (hT : c.now + HTTP_PROXY_TTL * Second ≤ T)
    (hkey : c2.key = c.key) (hc2 : c.now + HTTP_PROXY_TTL * Second ≤ c2.now) :
    let st := runPool get (history ++ c :: others) (NewHTTPProxyPool : HTTPProxyPool P E) w0
    ((st.2.1.fire T).sm c.key = none ∧ (st.2.1.fire T).timers c.key = none) ∧
    (HTTPProxyPool.GetAt get st.2.1 c2 st.2.2).1 = (get c2.src c2.invoke st.2.2).1 ∧
    (HTTPProxyPool.GetAt get st.2.1 c2 st.2.2).1 =
      (HTTPProxy.Get (get c2.src c2.invoke) NewHTTPProxy st.2.2).1 ∧
    (HTTPProxyPool.GetAt get st.2.1 c2 st.2.2).2.2 = (get c2.src c2.invoke st.2.2).2 ∧
    (HTTPProxyPool.GetAt get st.2.1 c2 st.2.2).2.1.sm c.key =
      some { id := st.2.1.proxiesMade, src := c2.src, invoke := c2.invoke,
             proxy := { inited := true, proxy := (get c2.src c2.invoke st.2.2).1.1,
                        err := (get c2.src c2.invoke st.2.2).1.2 } } ∧
    (∀ k e, st.2.1.sm k = some e → e.id ≠ st.2.1.proxiesMade) := by
  intro st
  have hst : st.2 = (runPool get others
      (HTTPProxyPool.GetAt get (runPool get history NewHTTPProxyPool w0).2.1 c
        (runPool get history NewHTTPProxyPool w0).2.2).2.1
      (HTTPProxyPool.GetAt get (runPool get history NewHTTPProxyPool w0).2.1 c
        (runPool get history NewHTTPProxyPool w0).2.2).2.2).2 :=
    runPool_append get history (c :: others) NewHTTPProxyPool w0
  have hinv0 : PoolInv (runPool get history (NewHTTPProxyPool : HTTPProxyPool P E) w0).2.1 :=
    PoolInv_runPool get history _ _ PoolInv_new
  have hinv : PoolInv st.2.1 := PoolInv_runPool get _ _ _ PoolInv_new
  have hexp : ((runPool get history (NewHTTPProxyPool : HTTPProxyPool P E) w0).2.1.fire
      c.now).expire = HTTP_PROXY_TTL * Second := hinv0.2.2
  have hpend : EvictionPending c.key (c.now + HTTP_PROXY_TTL * Second) st.2.1 := by
    rw [hst]
    apply EvictionPending_runPool get _ _ others _ _ hothers
    have := EvictionPending_Get get
      ((runPool get history (NewHTTPProxyPool : HTTPProxyPool P E) w0).2.1.fire c.now)
      c.now c.src c.invoke (runPool get history NewHTTPProxyPool w0).2.2
      (PoolInv_fire _ _ hinv0)
    rw [hexp] at this
    exact this
  have hgone := EvictionPending_gone c.key _ st.2.1 c2.now hpend hc2
  have hk2 : c2.src.GetKey ++ FormatBool c2.invoke = c.key := hkey
  have hnone : (st.2.1.fire c2.now).sm (c2.src.GetKey ++ FormatBool c2.invoke) = none := by
    rw [hk2]; exact hgone.1
  obtain ⟨g1, g2, g3⟩ := Get_sm_stored get (st.2.1.fire c2.now) c2.now c2.src c2.invoke
    st.2.2 hnone
  refine ⟨EvictionPending_gone c.key _ st.2.1 T hpend hT, g1, ?_, g2, ?_, ?_⟩
  · rw [show HTTPProxyPool.GetAt get st.2.1 c2 st.2.2 =
        HTTPProxyPool.Get get (st.2.1.fire c2.now) c2.now c2.src c2.invoke st.2.2 from rfl, g1]
    simp [HTTPProxy.Get, NewHTTPProxy]
  · rw [← hk2]
    exact g3
  · intro k e he
    exact Nat.ne_of_lt (hinv.2.1 k e he)

/-- C12, witness: on a new pool a `Get` at time 0 and the next `Get` for the same key
60 seconds later: the entries are gone at that time and the construction, an oracle
that counts its runs, runs a second time. -/
theorem pool_evicts_after_ttl_witness :
    (((runPool (fun _ _ (n : Nat) => ((some n, (none : Option Unit)), n + 1))
        [⟨0, ⟨"default".toList, "abcde".toList, "/".toList, [], none⟩, false⟩]
        NewHTTPProxyPool 0).2.1.fire 60000000000).sm "abcdedefaultfalse".toList = none) ∧
    (HTTPProxyPool.GetAt (fun _ _ (n : Nat) => ((some n, (none : Option Unit)), n + 1))
      (runPool (fun _ _ (n : Nat) => ((some n, (none : Option Unit)), n + 1))
        [⟨0, ⟨"default".toList, "abcde".toList, "/".toList, [], none⟩, false⟩]
        NewHTTPProxyPool 0).2.1
      ⟨60000000000, ⟨"default".toList, "abcde".toList, "/".toList, [], none⟩, false⟩ 1).1 =
      (some 1, none) :=
  have h := pool_evicts_after_ttl (fun _ _ (n : Nat) => ((some n, (none : Option Unit)), n + 1))
    [] ⟨0, ⟨"default".toList, "abcde".toList, "/".toList, [], none⟩, false⟩ []
    ⟨60000000000, ⟨"default".toList, "abcde".toList, "/".toList, [], none⟩, false⟩ 0
    60000000000 (fun _ h => absurd h (List.not_mem_nil _)) (by decide) rfl (by decide)
  ⟨h.1.1, h.2.1⟩

/-- C13: a `Get` for a key that already has a timer sets the deadline of that timer
to the time of the `Get` plus `expire` and starts no waiter; hence, after any history
of calls on a new pool and a `Get` for a key, in every sequence of further `Get`s
for that key in which each one comes less than the TTL after the one before, every
`Get` returns what the first one returned, no construction runs, and the pool holds
for the key the very instance the first `Get` left.  The `expire` of every pool
reached from `NewHTTPProxyPool` is 60 seconds. -/
theorem pool_sliding_ttl {P E W : Type}
    (get : Source → Bool → W → (Option P × Option E) × W)
    (s : HTTPProxyPool P E) (now : Nat) (src : Source) (invoke : Bool) (w : W)
    (history : List PoolCall) (c : PoolCall) (cs : List PoolCall) (w0 : W) :
    (∀ t, s.timers (src.GetKey ++ FormatBool invoke) = some t →
      (HTTPProxyPool.Get get s now src invoke w).2.1.timers (src.GetKey ++ FormatBool invoke) =
        some { t with deadline := now + s.expire } ∧
      (HTTPProxyPool.Get get s now src invoke w).2.1.waiters = s.waiters) ∧
    ((∀ x ∈ cs, x.key = c.key) → withinTTL (HTTP_PROXY_TTL * Second) c.now cs = true →
      let st0 := runPool get history (NewHTTPProxyPool : HTTPProxyPool P E) w0
      let r1 := HTTPProxyPool.GetAt get st0.2.1 c st0.2.2
      let r2 := runPool get cs r1.2.1 r1.2.2
      r2.1 = List.replicate cs.length r1.1 ∧ r2.2.2 = r1.2.2 ∧
      (∃ e, r1.2.1.sm c.key = some e ∧ r2.2.1.sm c.key = some e)) ∧
    (runPool get history (NewHTTPProxyPool : HTTPProxyPool P E) w0).2.1.expire =
      60 * 1000000000 := by
  refine ⟨fun t ht => Get_timers_loaded get s now src invoke w t ht, ?_,
    (PoolInv_runPool get history _ _ PoolInv_new).2.2⟩
  intro hk hw st0 r1 r2
  have hinv0 : PoolInv st0.2.1 := PoolInv_runPool get history _ _ PoolInv_new
  have hinvf : PoolInv (st0.2.1.fire c.now) := PoolInv_fire _ _ hinv0
  have hexp : r1.2.1.expire = HTTP_PROXY_TTL * Second := hinv0.2.2
  -- the entries the first call leaves
  have hsm : ∃ e, r1.2.1.sm c.key = some e ∧ e.proxy.inited = true ∧
      r1.1 = (e.proxy.proxy, e.proxy.err) := by
    cases hs : (st0.2.1.fire c.now).sm (c.src.GetKey ++ FormatBool c.invoke) with
    | none =>
      obtain ⟨g1, _, g3⟩ := Get_sm_stored get (st0.2.1.fire c.now) c.now c.src c.invoke
        st0.2.2 hs
      exact ⟨_, g3, rfl, g1⟩
    | some e0 =>
      obtain ⟨g1, _, g3⟩ := Get_sm_loaded get (st0.2.1.fire c.now) c.now c.src c.invoke
        st0.2.2 e0 hs
      have := HTTPProxy_Get_result (get e0.src e0.invoke) e0.proxy st0.2.2
      exact ⟨_, g3, this.1, g1.trans this.2⟩
  have htm : ∃ t, r1.2.1.timers c.key = some t ∧ t.deadline = c.now + r1.2.1.expire := by
    cases hs : (st0.2.1.fire c.now).timers (c.src.GetKey ++ FormatBool c.invoke) with
    | none =>
      exact ⟨_, (Get_timers_stored get (st0.2.1.fire c.now) c.now c.src c.invoke
        st0.2.2 hs).1, rfl⟩
    | some t0 =>
      exact ⟨_, (Get_timers_loaded get (st0.2.1.fire c.now) c.now c.src c.invoke
        st0.2.2 t0 hs).1, rfl⟩
  obtain ⟨e, he1, he2, he3⟩ := hsm
  obtain ⟨t, ht1, ht2⟩ := htm
  rw [← hexp] at hw
  obtain ⟨a1, a2, a3⟩ := alive_runPool get c.key cs r1.2.1 r1.2.2 c.now e t hk hw he1 he2
    ht1 ht2
  exact ⟨by rw [he3]; exact a1, a2, e, he1, a3⟩

/-- C13, witness: on a new pool, `Get`s for one key at 0, 59 and 118 seconds: the
second and third return what the first returned and the oracle, which counts its
runs, has run once. -/
theorem pool_sliding_ttl_witness :
    (runPool (fun _ _ (n : Nat) => ((some n, (none : Option Unit)), n + 1))
      [⟨59000000000, ⟨"default".toList, "abcde".toList, "/".toList, [], none⟩, false⟩,
       ⟨118000000000, ⟨"default".toList, "abcde".toList, "/".toList, [], none⟩, false⟩]
      (HTTPProxyPool.GetAt (fun _ _ (n : Nat) => ((some n, (none : Option Unit)), n + 1))
        NewHTTPProxyPool
        ⟨0, ⟨"default".toList, "abcde".toList, "/".toList, [], none⟩, false⟩ 0).2.1
      1).1 = [(some 0, none), (some 0, none)] ∧
    (runPool (fun _ _ (n : Nat) => ((some n, (none : Option Unit)), n + 1))
      [⟨59000000000, ⟨"default".toList, "abcde".toList, "/".toList, [], none⟩, false⟩,
       ⟨118000000000, ⟨"default".toList, "abcde".toList, "/".toList, [], none⟩, false⟩]
      (HTTPProxyPool.GetAt (fun _ _ (n : Nat) => ((some n, (none : Option Unit)), n + 1))
        NewHTTPProxyPool
        ⟨0, ⟨"default".toList, "abcde".toList, "/".toList, [], none⟩, false⟩ 0).2.1
      1).2.2 = 1 :=
  have h := (pool_sliding_ttl (fun _ _ (n : Nat) => ((some n, (none : Option Unit)), n + 1))
    NewHTTPProxyPool 0 ⟨"default".toList, "abcde".toList, "/".toList, [], none⟩ false 0 []
    ⟨0, ⟨"default".toList, "abcde".toList, "/".toList, [], none⟩, false⟩
    [⟨59000000000, ⟨"default".toList, "abcde".toList, "/".toList, [], none⟩, false⟩,
     ⟨118000000000, ⟨"default".toList, "abcde".toList, "/".toList, [], none⟩, false⟩] 0).2.1
    (by intro x hx; simp at hx; rcases hx with rfl | rfl <;> rfl) (by decide)
  ⟨h.1, h.2.1⟩

/-- C14: `Get` touches the pool only under the key `src.GetKey()` followed by the
text `true` when `invoke` is set and by the text `false` when it is not.
When the pool holds an instance under the key, the result is that of `Get` on this
instance, which stays under the key, and the instance made for the call is dropped;
when it holds none, the instance made for the call, non-initialised, is stored
under the key and the result is that of `Get` on it.  So a second call whose source
and flag give the same key, with no firing in between, is served by the instance of
the first: it returns the same result, runs no construction and leaves the same
instance under the key.  After a `Get` with the flag set the pool holds an instance
under `src.GetKey()` followed by `true`, after a `Get` with the flag not set one under
`src.GetKey()` followed by `false`. -/
theorem pool_get_load_or_create {P E W : Type}
    (get : Source → Bool → W → (Option P × Option E) × W)
    (s : HTTPProxyPool P E) (now : Nat) (src : Source) (invoke : Bool) (w : W) :
    (∀ k, k ≠ src.GetKey ++ (if invoke then "true".toList else "false".toList) →
      (HTTPProxyPool.Get get s now src invoke w).2.1.sm k = s.sm k ∧
      (HTTPProxyPool.Get get s now src invoke w).2.1.timers k = s.timers k) ∧
    (∀ e, s.sm (src.GetKey ++ (if invoke then "true".toList else "false".toList)) = some e →
      (HTTPProxyPool.Get get s now src invoke w).1 =
        (HTTPProxy.Get (get e.src e.invoke) e.proxy w).1 ∧
      (HTTPProxyPool.Get get s now src invoke w).2.1.sm
          (src.GetKey ++ (if invoke then "true".toList else "false".toList)) =
        some { e with proxy := (HTTPProxy.Get (get e.src e.invoke) e.proxy w).2.1 }) ∧
    (s.sm (src.GetKey ++ (if invoke then "true".toList else "false".toList)) = none →
      (HTTPProxyPool.Get get s now src invoke w).1 =
        (HTTPProxy.Get (get src invoke) NewHTTPProxy w).1 ∧
      (HTTPProxyPool.Get get s now src invoke w).2.1.sm
          (src.GetKey ++ (if invoke then "true".toList else "false".toList)) =
        some { id := s.proxiesMade, src := src, invoke := invoke,
               proxy := (HTTPProxy.Get (get src invoke) NewHTTPProxy w).2.1 }) ∧
    (∀ src2 invoke2 now2, src2.GetKey ++ (if invoke2 then "true".toList else "false".toList) =
        src.GetKey ++ (if invoke then "true".toList else "false".toList) →
      (HTTPProxyPool.Get get (HTTPProxyPool.Get get s now src invoke w).2.1 now2 src2 invoke2
          (HTTPProxyPool.Get get s now src invoke w).2.2).1 =
        (HTTPProxyPool.Get get s now src invoke w).1 ∧
      (HTTPProxyPool.Get get (HTTPProxyPool.Get get s now src invoke w).2.1 now2 src2 invoke2
          (HTTPProxyPool.Get get s now src invoke w).2.2).2.2 =
        (HTTPProxyPool.Get get s now src invoke w).2.2 ∧
      (HTTPProxyPool.Get get (HTTPProxyPool.Get get s now src invoke w).2.1 now2 src2 invoke2
          (HTTPProxyPool.Get get s now src invoke w).2.2).2.1.sm
          (src.GetKey ++ (if invoke then "true".toList else "false".toList)) =
        (HTTPProxyPool.Get get s now src invoke w).2.1.sm
          (src.GetKey ++ (if invoke then "true".toList else "false".toList)) ∧
      ((HTTPProxyPool.Get get s now src invoke w).2.1.sm
        (src.GetKey ++ (if invoke then "true".toList else "false".toList))).isSome = true) ∧
    ((HTTPProxyPool.Get get s now src true w).2.1.sm
      (src.GetKey ++ "true".toList)).isSome = true ∧
    ((HTTPProxyPool.Get get s now src false w).2.1.sm
      (src.GetKey ++ "false".toList)).isSome = true := by
  have hF : ∀ b : Bool, (if b then "true".toList else "false".toList) = FormatBool b :=
    fun _ => rfl
  have hsome : ∀ b : Bool, ((HTTPProxyPool.Get get s now src b w).2.1.sm
      (src.GetKey ++ FormatBool b)).isSome = true := by
    intro b
    cases hs : s.sm (src.GetKey ++ FormatBool b) with
    | none => rw [(Get_sm_stored get s now src b w hs).2.2]; rfl
    | some e0 => rw [(Get_sm_loaded get s now src b w e0 hs).2.2]; rfl
  simp only [hF]
  have hfirst : ∃ e, (HTTPProxyPool.Get get s now src invoke w).2.1.sm
      (src.GetKey ++ FormatBool invoke) = some e ∧ e.proxy.inited = true ∧
      (HTTPProxyPool.Get get s now src invoke w).1 = (e.proxy.proxy, e.proxy.err) := by
    cases hs : s.sm (src.GetKey ++ FormatBool invoke) with
    | none =>
      obtain ⟨g1, _, g3⟩ := Get_sm_stored get s now src invoke w hs
      exact ⟨_, g3, rfl, g1⟩
    | some e0 =>
      obtain ⟨g1, _, g3⟩ := Get_sm_loaded get s now src invoke w e0 hs
      have := HTTPProxy_Get_result (get e0.src e0.invoke) e0.proxy w
      exact ⟨_, g3, this.1, g1.trans this.2⟩
  refine ⟨?_, ?_, ?_, ?_, hsome true, hsome false⟩
  · intro k hk
    exact ⟨Get_sm_other get s now src invoke w k hk, Get_timers_other get s now src invoke w k hk⟩
  · intro e he
    obtain ⟨g1, _, g3⟩ := Get_sm_loaded get s now src invoke w e he
    exact ⟨g1, g3⟩
  · intro he
    obtain ⟨g1, _, g3⟩ := Get_sm_stored get s now src invoke w he
    refine ⟨?_, ?_⟩
    · rw [g1]; simp [HTTPProxy.Get, NewHTTPProxy]
    · rw [g3]; simp [HTTPProxy.Get, NewHTTPProxy]
  · intro src2 invoke2 now2 hk
    obtain ⟨e, he1, he2, he3⟩ := hfirst
    rw [← hk] at he1
    obtain ⟨g1, g2, g3⟩ := Get_sm_loaded get (HTTPProxyPool.Get get s now src invoke w).2.1
      now2 src2 invoke2 (HTTPProxyPool.Get get s now src invoke w).2.2 e he1
    rw [HTTPProxy_Get_inited _ _ _ he2] at g1 g2 g3
    rw [hk] at g3 he1
    exact ⟨g1.trans he3.symm, g2, g3.trans he1.symm, by rw [he1]; rfl⟩

/-- C14, witness: on a new pool, a `Get` for the source with path `/a` and extra `rx`
and then a `Get` for the source with path `/ar` and extra `x`, which has the same
key: the second returns what the first returned and the oracle has run once. -/
theorem pool_get_load_or_create_witness :
    (HTTPProxyPool.Get (fun _ _ (n : Nat) => ((some n, (none : Option Unit)), n + 1))
      (HTTPProxyPool.Get (fun _ _ (n : Nat) => ((some n, (none : Option Unit)), n + 1))
        NewHTTPProxyPool 0
        ⟨"default".toList, "abcde".toList, "/a".toList, [],
          some ⟨"r".toList, "/".toList, "rx".toList⟩⟩ false 0).2.1
      5 ⟨"default".toList, "abcde".toList, "/ar".toList, [],
          some ⟨"r".toList, "/".toList, "x".toList⟩⟩ false 1).1 = (some 0, none) ∧
    (HTTPProxyPool.Get (fun _ _ (n : Nat) => ((some n, (none : Option Unit)), n + 1))
      (HTTPProxyPool.Get (fun _ _ (n : Nat) => ((some n, (none : Option Unit)), n + 1))
        NewHTTPProxyPool 0
        ⟨"default".toList, "abcde".toList, "/a".toList, [],
          some ⟨"r".toList, "/".toList, "rx".toList⟩⟩ false 0).2.1
      5 ⟨"default".toList, "abcde".toList, "/ar".toList, [],
          some ⟨"r".toList, "/".toList, "x".toList⟩⟩ false 1).2.2 = 1 :=
  have h := (pool_get_load_or_create
    (fun _ _ (n : Nat) => ((some n, (none : Option Unit)), n + 1)) NewHTTPProxyPool 0
    ⟨"default".toList, "abcde".toList, "/a".toList, [],
      some ⟨"r".toList, "/".toList, "rx".toList⟩⟩ false 0).2.2.2.1
    ⟨"default".toList, "abcde".toList, "/ar".toList, [],
      some ⟨"r".toList, "/".toList, "x".toList⟩⟩ false 5 (by decide)
  ⟨h.1, h.2.1⟩

/-- C15: for an accepted request whose normalized path has no `~`, `Parse` returns the
identifier as `InfoHash`, `Path = Clean("/" + rest)`, which is `/` when there is no
rest, no `Mod`, and as `Token` the first value of the query parameter `token`, the
empty string when the query has no `token` or no value for it. -/
theorem Parse_plain (mods : List Str) (url : URL) (src : Source)
    (hok : Parse mods url = .ok src) (ht : '~' ∉ normalizedPath url) :
    src.InfoHash = identifier url ∧
    src.Path = Clean ('/' :: afterFirst '/' (url.Path.drop 1)) ∧
    (afterFirst '/' (url.Path.drop 1) = [] → src.Path = ['/']) ∧
    src.Mod = none ∧
    src.Token = url.Query.Get "token".toList ∧
    (url.Query "token".toList = none → src.Token = []) ∧
    (url.Query "token".toList = some [] → src.Token = []) ∧
    (∀ x xs, url.Query "token".toList = some (x :: xs) → src.Token = x) := by
  obtain ⟨h1, h2, _, h4⟩ := Parse_ok_fields hok
  rw [extractMod_no_tilde mods ht] at h4
  simp only [Except.ok.injEq, Prod.mk.injEq] at h4
  obtain ⟨h5, h6⟩ := h4
  refine ⟨h1, h5.symm, ?_, h6.symm, h2, ?_, ?_, ?_⟩
  · intro e
    rw [← h5]
    show Clean ('/' :: afterFirst '/' (url.Path.drop 1)) = ['/']
    rw [e]
    rfl
  · intro e
    rw [h2]
    simp only [Values.Get, e]
  · intro e
    rw [h2]
    simp only [Values.Get, e]
  · intro x xs e
    rw [h2]
    simp only [Values.Get, e]

set_option maxRecDepth 100000 in
/-- C15, witness: `/abc12/videos/ep1.mp4?token=t1` with no configured mods gives
`InfoHash = abc12`, `Type = default`, `Path = /videos/ep1.mp4`, no `Mod` and
`Token = t1`. -/
theorem Parse_plain_witness :
    ∃ src, Parse [] ⟨"/abc12/videos/ep1.mp4".toList,
        fun k => if k = "token".toList then some ["t1".toList] else none⟩ = .ok src ∧
      src.InfoHash = "abc12".toList ∧ src.Type_ = "default".toList ∧
      src.Path = "/videos/ep1.mp4".toList ∧ src.Mod = none ∧ src.Token = "t1".toList :=
  have h := Parse_plain [] ⟨"/abc12/videos/ep1.mp4".toList,
      fun k => if k = "token".toList then some ["t1".toList] else none⟩
    { Type_ := "default".toList, InfoHash := "abc12".toList,
      Path := "/videos/ep1.mp4".toList, Token := "t1".toList, Mod := none } rfl (by decide)
  ⟨_, rfl, h.1.trans rfl, rfl, h.2.1.trans rfl, h.2.2.2.1, h.2.2.2.2.2.2.2 _ [] rfl⟩

/-- C16: for an accepted request the returned `Path` is not empty and starts with
`/`, whether or not the normalized path was cut at a `~`. -/
theorem Parse_path_rooted (mods : List Str) (url : URL) (src : Source)
    (hok : Parse mods url = .ok src) :
    src.Path ≠ [] ∧ src.Path.head? = some '/' ∧
    ('~' ∉ normalizedPath url → src.Path = normalizedPath url) ∧
    (∀ pre suf, normalizedPath url = pre ++ '~' :: suf → '~' ∉ suf → src.Path = pre) := by
  obtain ⟨t, _, _, hp, _, _⟩ := Parse_ok_path_rooted hok
  refine ⟨by rw [hp]; simp, by rw [hp]; rfl, (Parse_ok_path hok).1, ?_⟩
  intro pre suf h1 h2
  exact (Parse_ok_cut hok h1 h2).2.1

set_option maxRecDepth 100000 in
/-- C16, witness: `/abcde/~r/x` with mods = [r] is cut right after the root and gives
`Path = /`; `/abcde/dir/f~zz`, with `zz` not configured, gives `Path = /dir/f`. -/
theorem Parse_path_rooted_witness :
    (∃ src, Parse ["r".toList] ⟨"/abcde/~r/x".toList, fun _ => none⟩ = .ok src ∧
      src.Path = "/".toList ∧ src.Path ≠ [] ∧ src.Path.head? = some '/') ∧
    (∃ src, Parse ["r".toList] ⟨"/abcde/dir/f~zz".toList, fun _ => none⟩ = .ok src ∧
      src.Path = "/dir/f".toList ∧ src.Path ≠ [] ∧ src.Path.head? = some '/') :=
  have h1 := Parse_path_rooted ["r".toList] ⟨"/abcde/~r/x".toList, fun _ => none⟩
    { Type_ := "default".toList, InfoHash := "abcde".toList, Path := "/".toList, Token := [],
      Mod := some ⟨"r".toList, "/x".toList, []⟩ } rfl
  have h2 := Parse_path_rooted ["r".toList] ⟨"/abcde/dir/f~zz".toList, fun _ => none⟩
    { Type_ := "default".toList, InfoHash := "abcde".toList, Path := "/dir/f".toList,
      Token := [], Mod := none } rfl
  ⟨⟨_, rfl, rfl, h1.1, h1.2.1⟩, ⟨_, rfl, rfl, h2.1, h2.2.1⟩⟩

set_option maxRecDepth 100000 in
/-- C18: with mods = [r] the requests `/abcde/a~r:rx` and `/abcde/ar~r:x` are both
accepted, with the same identifier and the recognized mod `r`; their sources differ
in `Path` (`/a`, `/ar`) and in `Mod.Extra` (`rx`, `x`) and have the same key
`abcdedefault/arrx`, hence the same pool key with either flag. -/
theorem GetKey_collision :
    Parse ["r".toList] ⟨"/abcde/a~r:rx".toList, fun _ => none⟩ =
      .ok ⟨"default".toList, "abcde".toList, "/a".toList, [],
        some ⟨"r".toList, "/".toList, "rx".toList⟩⟩ ∧
    Parse ["r".toList] ⟨"/abcde/ar~r:x".toList, fun _ => none⟩ =
      .ok ⟨"default".toList, "abcde".toList, "/ar".toList, [],
        some ⟨"r".toList, "/".toList, "x".toList⟩⟩ ∧
    "/a".toList ≠ "/ar".toList ∧ "rx".toList ≠ "x".toList ∧
    Source.GetKey ⟨"default".toList, "abcde".toList, "/a".toList, [],
        some ⟨"r".toList, "/".toList, "rx".toList⟩⟩ = "abcdedefault/arrx".toList ∧
    Source.GetKey ⟨"default".toList, "abcde".toList, "/ar".toList, [],
        some ⟨"r".toList, "/".toList, "x".toList⟩⟩ = "abcdedefault/arrx".toList ∧
    (∀ invoke : Bool,
      PoolCall.key ⟨0, ⟨"default".toList, "abcde".toList, "/a".toList, [],
          some ⟨"r".toList, "/".toList, "rx".toList⟩⟩, invoke⟩ =
        PoolCall.key ⟨0, ⟨"default".toList, "abcde".toList, "/ar".toList, [],
          some ⟨"r".toList, "/".toList, "x".toList⟩⟩, invoke⟩) :=
  ⟨rfl, rfl, by decide, by decide, rfl, rfl, fun _ => rfl⟩

/-- C19: for all sources `a` and `b` the pool key of `a` with the flag true differs
from the pool key of `b` with the flag false, so a `Get` with one flag leaves the
entry of every key with the other flag as it is. -/
theorem pool_key_keeps_flag {P E W : Type}
    (get : Source → Bool → W → (Option P × Option E) × W)
    (s : HTTPProxyPool P E) (now : Nat) (w : W) (a b : Source) :
    a.GetKey ++ "true".toList ≠ b.GetKey ++ "false".toList ∧
    a.GetKey ++ FormatBool true ≠ b.GetKey ++ FormatBool false ∧
    (HTTPProxyPool.Get get s now b false w).2.1.sm (a.GetKey ++ FormatBool true) =
      s.sm (a.GetKey ++ FormatBool true) ∧
    (HTTPProxyPool.Get get s now a true w).2.1.sm (b.GetKey ++ FormatBool false) =
      s.sm (b.GetKey ++ FormatBool false) := by
  have h := append_true_ne_append_false a.GetKey b.GetKey
  exact ⟨h, h, Get_sm_other get s now b false w _ h, Get_sm_other get s now a true w _ h.symm⟩

end Services
